import Mathlib

/-!
Verification of the `fsm.py` module of the greenery repository: a deterministic
finite automaton (DFA) algebra engine.  Every definition below is a shallow
embedding of the corresponding Python code in `src/fsm.py`; where the Python
code relies on the external `lego` expression-algebra module (which is not part
of the repository sources), the Lean definition is modelled from the
specification and marked as such in its doc comment.

Conventions of the embedding:
* Python sets become `Finset` (the `fsm` constructor copies `states` and
  `finals` into sets; `alphabet` is stored as passed, and is a set in every
  caller).
* The validated transition map (a Python dict of dicts, total on
  `states x alphabet` after validation) becomes a Lean function `σ → α → σ`;
  outside its meaningful domain the function returns junk values, matching the
  fact that the Python dict would simply not be consulted there.
* The raw, not yet validated transition table handed to the constructor is kept
  as an association list so that incompleteness is representable.
* Python's `sorted(alphabet, key=str)` becomes `List.insertionSort` by a
  linear order on the symbols; a stable sort of a duplicate-free list is
  determined by sortedness plus the permutation property, so any correct sort
  models it.
* The unbounded worklist loops (`_crawl`, equation discovery in `pattern`) take
  an explicit fuel parameter; running out of fuel returns a dedicated value
  that models non-termination of the Python loop, not an error the source
  raises.
-/

/-- Error values of the module.  The first five correspond to the
`BadFsmException` raise sites in `fsm.__init__`; `alphabetMismatch` corresponds
to the plain `Exception` raised by the binary operators on unequal alphabets;
`outOfFuel` is an artifact of the embedding (it models a Python loop that has
not yet terminated, and is never produced when enough fuel is supplied). -/
inductive FsmErr where
  | badInitial : FsmErr
  | badFinals : FsmErr
  | missingStateKey : FsmErr
  | missingSymbolKey : FsmErr
  | badTarget : FsmErr
  | alphabetMismatch : FsmErr
  | outOfFuel : FsmErr
deriving DecidableEq

/-- The automaton value type of `fsm.py`: alphabet, state set, initial state,
final states and a transition map.  The map is represented as a total Lean
function; validation (`mkFsm`) guarantees that it agrees with the Python dict
on `states x alphabet`. -/
structure FSM (α σ : Type) where
  alphabet : Finset α
  states : Finset σ
  initial : σ
  finals : Finset σ
  map : σ → α → σ

/-- The structural invariants checked by `fsm.__init__`: the initial state is a
state, the final states are states, and the transition map sends
`states x alphabet` into `states`. -/
def FSM.Valid {α σ : Type} (M : FSM α σ) : Prop :=
  M.initial ∈ M.states ∧ M.finals ⊆ M.states ∧
    ∀ s ∈ M.states, ∀ a ∈ M.alphabet, M.map s a ∈ M.states

instance {α σ : Type} [DecidableEq α] [DecidableEq σ] (M : FSM α σ) :
    Decidable M.Valid := by
  unfold FSM.Valid; infer_instance

/-- Key lookup in an association list (the embedding of a Python dict read). -/
def findKey {κ ν : Type} [DecidableEq κ] (l : List (κ × ν)) (k : κ) : Option ν :=
  (l.find? fun p => decide (p.1 = k)).map Prod.snd

/-- `fsm.__init__`: either a fully validated automaton or a validation error.
The Python code interleaves the per-state and per-symbol checks in one loop
nest over (unordered) sets, so which of the map-related errors is reported
first for a given bad input depends on set iteration order; here the checks
run in the textual order of their raise sites.  No partially constructed
automaton can be produced: the `.ok` branch is only reached after every check
has passed. -/
def mkFsm {α σ : Type} [DecidableEq α] [DecidableEq σ] (alphabet : Finset α)
    (states : Finset σ) (initial : σ) (finals : Finset σ)
    (tmap : List (σ × List (α × σ))) : Except FsmErr (FSM α σ) :=
  if initial ∉ states then .error .badInitial
  else if ¬ finals ⊆ states then .error .badFinals
  else if ¬ ∀ s ∈ states, (findKey tmap s).isSome then .error .missingStateKey
  else if ¬ ∀ s ∈ states, ∀ a ∈ alphabet,
      (findKey ((findKey tmap s).getD []) a).isSome then .error .missingSymbolKey
  else if ¬ ∀ s ∈ states, ∀ a ∈ alphabet,
      (findKey ((findKey tmap s).getD []) a).getD initial ∈ states then
    .error .badTarget
  else .ok ⟨alphabet, states, initial, finals,
    fun s a => (findKey ((findKey tmap s).getD []) a).getD initial⟩

/-- `fsm.accepts`: walk the transition map from the initial state, consuming
the input left to right; accept iff the resulting state is final. -/
def FSM.accepts {α σ : Type} [DecidableEq σ] (M : FSM α σ) (input : List α) : Bool :=
  decide (input.foldl M.map M.initial ∈ M.finals)

/-- `null`: the automaton accepting nothing. -/
def nullFsm {α : Type} (alphabet : Finset α) : FSM α ℕ :=
  ⟨alphabet, {0}, 0, ∅, fun _ _ => 0⟩

/-- `epsilon`: the automaton accepting exactly the empty sequence.  Both of
its transition rows send every symbol to the sink state `1`. -/
def epsilon {α : Type} (alphabet : Finset α) : FSM α ℕ :=
  ⟨alphabet, {0, 1}, 0, {0}, fun _ _ => 1⟩

/-- C6: constructing an automaton either returns a validated immutable
automaton built exactly from the supplied data, or fails with a validation
error; success happens precisely when the invariants hold (initial a state,
finals a subset of the states, transition table complete on
`states x alphabet` with every target a state), and no partially constructed
automaton is ever returned. -/
theorem mkFsm_spec {α σ : Type} [DecidableEq α] [DecidableEq σ]
    (al : Finset α) (st : Finset σ) (ini : σ) (fin : Finset σ)
    (tmap : List (σ × List (α × σ))) :
    (∀ M, mkFsm al st ini fin tmap = Except.ok M →
      M.alphabet = al ∧ M.states = st ∧ M.initial = ini ∧ M.finals = fin ∧
      M.Valid ∧
      ∀ s ∈ st, ∀ a ∈ al, findKey ((findKey tmap s).getD []) a = some (M.map s a))
    ∧ ((∃ M, mkFsm al st ini fin tmap = Except.ok M) ↔
      (ini ∈ st ∧ fin ⊆ st ∧
        ∀ s ∈ st, ∃ row, findKey tmap s = some row ∧
          ∀ a ∈ al, ∃ t, findKey row a = some t ∧ t ∈ st)) := by
  constructor
  · intro M hM
    unfold mkFsm at hM
    split_ifs at hM with h1 h2 h3 h4 h5
    have hM2 : M = ⟨al, st, ini, fin,
        fun s a => (findKey ((findKey tmap s).getD []) a).getD ini⟩ := by
      cases hM; rfl
    push_neg at h1 h2 h3 h4 h5
    subst hM2
    refine ⟨rfl, rfl, rfl, rfl, ⟨h1, h2, ?_⟩, ?_⟩
    · intro s hs a ha
      exact h5 s hs a ha
    · intro s hs a ha
      have h4s := h4 s hs a ha
      obtain ⟨t, ht⟩ := Option.isSome_iff_exists.mp h4s
      simp [ht]
  · constructor
    · rintro ⟨M, hM⟩
      unfold mkFsm at hM
      split_ifs at hM with h1 h2 h3 h4 h5
      push_neg at h1 h2 h3 h4 h5
      refine ⟨h1, h2, ?_⟩
      intro s hs
      obtain ⟨row, hrow⟩ := Option.isSome_iff_exists.mp (h3 s hs)
      refine ⟨row, hrow, ?_⟩
      intro a ha
      have h4s := h4 s hs a ha
      have h5s := h5 s hs a ha
      rw [hrow] at h4s h5s
      simp only [Option.getD_some] at h4s h5s
      obtain ⟨t, ht⟩ := Option.isSome_iff_exists.mp h4s
      rw [ht] at h5s
      simp only [Option.getD_some] at h5s
      exact ⟨t, ht, h5s⟩
    · rintro ⟨h1, h2, h3⟩
      unfold mkFsm
      have c3 : ∀ s ∈ st, (findKey tmap s).isSome := by
        intro s hs
        obtain ⟨row, hrow, _⟩ := h3 s hs
        simp [hrow]
      have c4 : ∀ s ∈ st, ∀ a ∈ al,
          (findKey ((findKey tmap s).getD []) a).isSome := by
        intro s hs a ha
        obtain ⟨row, hrow, hr⟩ := h3 s hs
        obtain ⟨t, ht, _⟩ := hr a ha
        simp [hrow, ht]
      have c5 : ∀ s ∈ st, ∀ a ∈ al,
          (findKey ((findKey tmap s).getD []) a).getD ini ∈ st := by
        intro s hs a ha
        obtain ⟨row, hrow, hr⟩ := h3 s hs
        obtain ⟨t, ht, hts⟩ := hr a ha
        simp [hrow, ht, hts]
      rw [if_neg (not_not_intro h1), if_neg (not_not_intro h2),
        if_neg (not_not_intro c3), if_neg (not_not_intro c4),
        if_neg (not_not_intro c5)]
      exact ⟨_, rfl⟩

/-- C8: acceptance on the empty sequence is exactly membership of the initial
state in the final set; one consumed symbol advances the walk by one
transition; and in general a sequence is accepted iff folding the transition
map over it, starting at the initial state, lands in a final state. -/
theorem accepts_spec {α σ : Type} [DecidableEq σ] (M : FSM α σ) :
    (M.accepts [] = true ↔ M.initial ∈ M.finals)
    ∧ (∀ a s, M.accepts (a :: s) =
        FSM.accepts ⟨M.alphabet, M.states, M.map M.initial a, M.finals, M.map⟩ s)
    ∧ (∀ s, M.accepts s = true ↔ s.foldl M.map M.initial ∈ M.finals) := by
  refine ⟨?_, ?_, ?_⟩
  · simp [FSM.accepts]
  · intro a s; rfl
  · intro s; simp [FSM.accepts]

/-- A symbol sequence over a given alphabet. -/
def InAlpha {α : Type} (al : Finset α) (w : List α) : Prop := ∀ x ∈ w, x ∈ al

/-- `fsm.equivalent`: two states are functionally equivalent iff they have the
same finality and, for every alphabet symbol, their transition targets agree
after identifying `state2` with `state1`. -/
def FSM.equivalent {α σ : Type} [DecidableEq α] [DecidableEq σ] (M : FSM α σ)
    (state1 state2 : σ) : Bool :=
  decide ((state1 ∈ M.finals) ↔ (state2 ∈ M.finals)) &&
  decide (∀ a ∈ M.alphabet,
    (if M.map state1 a = state2 then state1 else M.map state1 a) =
    (if M.map state2 a = state2 then state1 else M.map state2 a))

/-- The state renaming performed by `fsm.replace`: every occurrence of `sOld`
(`this` in the source) becomes `sNew` (`that`). -/
def mergeInto {σ : Type} [DecidableEq σ] (sOld sNew : σ) (s : σ) : σ :=
  if s = sOld then sNew else s

/-- `fsm.replace`: rename `sOld` to `sNew` in the state set, the initial
state, the final set, and the transition map.  The Python dict comprehension
keys the new map by renamed states; when `sOld` and `sNew` are both states the
two renamed source rows collide on the key `sNew` and dict insertion order
picks one, but the two rows agree after renaming whenever the pair is
`equivalent`, which holds at every call of `replace` made by `automerge`.  The
function representation below keeps, for each surviving state, its own renamed
row. -/
def FSM.replace {α σ : Type} [DecidableEq σ] (M : FSM α σ) (sOld sNew : σ) :
    FSM α σ :=
  ⟨M.alphabet, M.states.image (mergeInto sOld sNew),
    mergeInto sOld sNew M.initial,
    M.finals.image (mergeInto sOld sNew),
    fun s a => mergeInto sOld sNew (M.map s a)⟩

/-- Inner loop of `automerge.trymerge`: scan for a state `u` distinct from `t`
with `equivalent t u`. -/
def findMergeInner {α σ : Type} [DecidableEq α] [DecidableEq σ] (M : FSM α σ)
    (t : σ) : List σ → Option σ
  | [] => none
  | u :: us =>
      if u = t then findMergeInner M t us
      else if M.equivalent t u then some u else findMergeInner M t us

/-- Outer loop of `automerge.trymerge`: find the first pair of distinct
equivalent states. -/
def findMergeAux {α σ : Type} [DecidableEq α] [DecidableEq σ] (M : FSM α σ) :
    List σ → List σ → Option (σ × σ)
  | [], _ => none
  | t :: ts, all =>
      match findMergeInner M t all with
      | some u => some (t, u)
      | none => findMergeAux M ts all

/-- Enumerate a finite set as an ascending list.  Sorting is invariant under
permutation of the underlying list, so it lifts to the multiset quotient; this
is the executable stand-in for iterating a Python set in a deterministic
order. -/
def sortedElems {α : Type} [LinearOrder α] (s : Finset α) : List α :=
  Quot.liftOn s.val (fun l => List.insertionSort (· ≤ ·) l)
    (fun l₁ l₂ p => List.eq_of_perm_of_sorted
      ((List.perm_insertionSort _ l₁).trans
        ((Quotient.exact (Quot.sound p)).trans
          (List.perm_insertionSort _ l₂).symm))
      (List.sorted_insertionSort _ l₁) (List.sorted_insertionSort _ l₂))

theorem mem_sortedElems {α : Type} [LinearOrder α] (s : Finset α) (a : α) :
    a ∈ sortedElems s ↔ a ∈ s := by
  rcases s with ⟨m, hm⟩
  induction m using Quot.inductionOn with
  | h l =>
      show a ∈ List.insertionSort (· ≤ ·) l ↔ _
      rw [List.Perm.mem_iff (List.perm_insertionSort _ l)]
      rfl

/-- The pair search of `automerge.trymerge`.  Python iterates the state set
twice in its (unspecified but in-process deterministic) set order; the states
are scanned here in ascending order.  The scan order decides only which
equivalent pair merges first, never whether one is found. -/
def FSM.findMergePair {α σ : Type} [DecidableEq α] [LinearOrder σ]
    (M : FSM α σ) : Option (σ × σ) :=
  findMergeAux M (sortedElems M.states) (sortedElems M.states)

theorem findMergeInner_some {α σ : Type} [DecidableEq α] [DecidableEq σ]
    (M : FSM α σ) (t u : σ) :
    ∀ l, findMergeInner M t l = some u →
      u ∈ l ∧ u ≠ t ∧ M.equivalent t u = true := by
  intro l
  induction l with
  | nil => intro h; simp [findMergeInner] at h
  | cons v vs ih =>
      intro h
      unfold findMergeInner at h
      split_ifs at h with h1 h2
      · obtain ⟨h3, h4, h5⟩ := ih h
        exact ⟨List.mem_cons_of_mem _ h3, h4, h5⟩
      · cases h
        exact ⟨List.mem_cons_self _ _, h1, h2⟩
      · obtain ⟨h3, h4, h5⟩ := ih h
        exact ⟨List.mem_cons_of_mem _ h3, h4, h5⟩

theorem findMergeInner_none {α σ : Type} [DecidableEq α] [DecidableEq σ]
    (M : FSM α σ) (t : σ) :
    ∀ l, findMergeInner M t l = none →
      ∀ u ∈ l, u ≠ t → M.equivalent t u = false := by
  intro l
  induction l with
  | nil => intro _ u hu; simp at hu
  | cons v vs ih =>
      intro h u hu hne
      unfold findMergeInner at h
      split_ifs at h with h1 h2
      · rcases List.mem_cons.mp hu with h3 | h3
        · subst h3; exact absurd h1 hne
        · exact ih h u h3 hne
      · rcases List.mem_cons.mp hu with h3 | h3
        · subst h3; exact Bool.not_eq_true _ ▸ (by simp [h2])
        · exact ih h u h3 hne

theorem findMergeAux_some {α σ : Type} [DecidableEq α] [DecidableEq σ]
    (M : FSM α σ) (t u : σ) :
    ∀ l₁ l₂, findMergeAux M l₁ l₂ = some (t, u) →
      t ∈ l₁ ∧ u ∈ l₂ ∧ u ≠ t ∧ M.equivalent t u = true := by
  intro l₁
  induction l₁ with
  | nil => intro l₂ h; simp [findMergeAux] at h
  | cons v vs ih =>
      intro l₂ h
      unfold findMergeAux at h
      rcases h2 : findMergeInner M v l₂ with _ | w
      · rw [h2] at h
        obtain ⟨h3, h4⟩ := ih l₂ h
        exact ⟨List.mem_cons_of_mem _ h3, h4⟩
      · rw [h2] at h
        cases h
        obtain ⟨h3, h4, h5⟩ := findMergeInner_some M _ _ _ h2
        exact ⟨List.mem_cons_self _ _, h3, h4, h5⟩

theorem findMergeAux_none {α σ : Type} [DecidableEq α] [DecidableEq σ]
    (M : FSM α σ) :
    ∀ l₁ l₂, findMergeAux M l₁ l₂ = none →
      ∀ t ∈ l₁, ∀ u ∈ l₂, u ≠ t → M.equivalent t u = false := by
  intro l₁
  induction l₁ with
  | nil => intro l₂ _ t ht; simp at ht
  | cons v vs ih =>
      intro l₂ h t ht u hu hne
      unfold findMergeAux at h
      rcases h2 : findMergeInner M v l₂ with _ | w
      · rw [h2] at h
        rcases List.mem_cons.mp ht with h3 | h3
        · subst h3; exact findMergeInner_none M _ _ h2 u hu hne
        · exact ih l₂ h t h3 u hu hne
      · rw [h2] at h; cases h

theorem findMergePair_some {α σ : Type} [DecidableEq α] [LinearOrder σ]
    (M : FSM α σ) (t u : σ) (h : M.findMergePair = some (t, u)) :
    t ∈ M.states ∧ u ∈ M.states ∧ u ≠ t ∧ M.equivalent t u = true := by
  obtain ⟨h1, h2, h3, h4⟩ := findMergeAux_some M t u _ _ h
  exact ⟨(mem_sortedElems _ _).mp h1, (mem_sortedElems _ _).mp h2, h3, h4⟩

theorem findMergePair_none {α σ : Type} [DecidableEq α] [LinearOrder σ]
    (M : FSM α σ) (h : M.findMergePair = none) :
    ∀ t ∈ M.states, ∀ u ∈ M.states, u ≠ t → M.equivalent t u = false := by
  intro t ht u hu hne
  exact findMergeAux_none M _ _ h t ((mem_sortedElems _ _).mpr ht) u
    ((mem_sortedElems _ _).mpr hu) hne

theorem replace_states_subset {α σ : Type} [DecidableEq σ] (M : FSM α σ)
    (sOld sNew : σ) (hNew : sNew ∈ M.states) :
    (M.replace sOld sNew).states ⊆ M.states := by
  intro x hx
  obtain ⟨y, hy, hxy⟩ := Finset.mem_image.mp hx
  unfold mergeInto at hxy
  split_ifs at hxy with h
  · exact hxy ▸ hNew
  · exact hxy ▸ hy

theorem replace_card_lt {α σ : Type} [DecidableEq σ] (M : FSM α σ)
    (sOld sNew : σ) (hOld : sOld ∈ M.states) (hNew : sNew ∈ M.states)
    (hne : sNew ≠ sOld) :
    (M.replace sOld sNew).states.card < M.states.card := by
  have hsub : (M.replace sOld sNew).states ⊆ M.states.erase sOld := by
    intro x hx
    obtain ⟨y, hy, hxy⟩ := Finset.mem_image.mp hx
    unfold mergeInto at hxy
    split_ifs at hxy with h
    · exact Finset.mem_erase.mpr ⟨hxy ▸ hne, hxy ▸ hNew⟩
    · exact Finset.mem_erase.mpr ⟨hxy ▸ h, hxy ▸ hy⟩
  calc (M.replace sOld sNew).states.card
      ≤ (M.states.erase sOld).card := Finset.card_le_card hsub
    _ < M.states.card := Finset.card_erase_lt_of_mem hOld

/-- The body of the `automerge` fixpoint loop, iterated a bounded number of
times.  Each round performs one `trymerge` step: merge the first equivalent
pair found, or stop at the fixpoint. -/
def automergeFuel {α σ : Type} [DecidableEq α] [LinearOrder σ] :
    ℕ → FSM α σ → FSM α σ
  | 0, M => M
  | fuel + 1, M =>
      match M.findMergePair with
      | none => M
      | some tu => automergeFuel fuel (M.replace tu.1 tu.2)

/-- `fsm.automerge`: merge equivalent state pairs until none remains ("do it
until it hurts").  Each merge strictly decreases the number of states — the
termination argument of the claim — so `card + 1` rounds of the loop body are
guaranteed to reach the fixpoint; `automergeFuel_master` below proves that the
fixpoint is indeed reached within this bound, making the bounded iteration
extensionally equal to the unbounded Python `while` loop. -/
def FSM.automerge {α σ : Type} [DecidableEq α] [LinearOrder σ] (M : FSM α σ) :
    FSM α σ :=
  automergeFuel (M.states.card + 1) M

theorem equivalent_finals {α σ : Type} [DecidableEq α] [DecidableEq σ]
    (M : FSM α σ) (s1 s2 : σ) (h : M.equivalent s1 s2 = true) :
    s1 ∈ M.finals ↔ s2 ∈ M.finals := by
  unfold FSM.equivalent at h
  simp only [Bool.and_eq_true, decide_eq_true_eq] at h
  exact h.1

theorem equivalent_map {α σ : Type} [DecidableEq α] [DecidableEq σ]
    (M : FSM α σ) (s1 s2 : σ) (h : M.equivalent s1 s2 = true) (a : α)
    (ha : a ∈ M.alphabet) :
    (if M.map s1 a = s2 then s1 else M.map s1 a) =
      (if M.map s2 a = s2 then s1 else M.map s2 a) := by
  unfold FSM.equivalent at h
  simp only [Bool.and_eq_true, decide_eq_true_eq] at h
  exact h.2 a ha

theorem mergeInto_congr {σ : Type} [DecidableEq σ] (s1 s2 x y : σ)
    (h : (if x = s2 then s1 else x) = (if y = s2 then s1 else y)) :
    mergeInto s1 s2 x = mergeInto s1 s2 y := by
  unfold mergeInto
  by_cases hx : x = s2
  · by_cases hy : y = s2
    · rw [hx, hy]
    · rw [if_pos hx, if_neg hy] at h
      rw [hx, ← h]
      simp
  · by_cases hy : y = s2
    · rw [if_neg hx, if_pos hy] at h
      rw [hy, h]
      simp
    · rw [if_neg hx, if_neg hy] at h
      rw [h]

theorem foldl_mem {α σ : Type} (M : FSM α σ) (hv : M.Valid) :
    ∀ w, InAlpha M.alphabet w → ∀ x ∈ M.states, w.foldl M.map x ∈ M.states := by
  intro w
  induction w with
  | nil => intro _ x hx; exact hx
  | cons a w ih =>
      intro hw x hx
      have ha : a ∈ M.alphabet := hw a (List.mem_cons_self _ _)
      have hw2 : InAlpha M.alphabet w := fun b hb => hw b (List.mem_cons_of_mem _ hb)
      exact ih hw2 (M.map x a) (hv.2.2 x hx a ha)

theorem replace_foldl {α σ : Type} [DecidableEq α] [DecidableEq σ] (M : FSM α σ)
    (s1 s2 : σ) (hv : M.Valid) (heq : M.equivalent s1 s2 = true) :
    ∀ w, InAlpha M.alphabet w → ∀ x ∈ M.states,
      w.foldl (M.replace s1 s2).map (mergeInto s1 s2 x) =
        mergeInto s1 s2 (w.foldl M.map x) := by
  intro w
  induction w with
  | nil => intro _ x _; rfl
  | cons a w ih =>
      intro hw x hx
      have ha : a ∈ M.alphabet := hw a (List.mem_cons_self _ _)
      have hw2 : InAlpha M.alphabet w := fun b hb => hw b (List.mem_cons_of_mem _ hb)
      have hstep : (M.replace s1 s2).map (mergeInto s1 s2 x) a =
          mergeInto s1 s2 (M.map x a) := by
        show mergeInto s1 s2 (M.map (mergeInto s1 s2 x) a) =
          mergeInto s1 s2 (M.map x a)
        by_cases hxs : x = s1
        · have h1 : mergeInto s1 s2 x = s2 := by
            unfold mergeInto; rw [if_pos hxs]
          rw [h1, hxs]
          exact (mergeInto_congr s1 s2 _ _ (equivalent_map M s1 s2 heq a ha)).symm
        · have h1 : mergeInto s1 s2 x = x := by
            unfold mergeInto; rw [if_neg hxs]
          rw [h1]
      rw [List.foldl_cons, List.foldl_cons, hstep]
      exact ih hw2 (M.map x a) (hv.2.2 x hx a ha)

theorem replace_finals_iff {α σ : Type} [DecidableEq α] [DecidableEq σ]
    (M : FSM α σ) (s1 s2 : σ) (heq : M.equivalent s1 s2 = true) (y : σ) :
    mergeInto s1 s2 y ∈ (M.replace s1 s2).finals ↔ y ∈ M.finals := by
  have hfin := equivalent_finals M s1 s2 heq
  constructor
  · intro hy
    obtain ⟨z, hz, hzy⟩ := Finset.mem_image.mp hy
    by_cases hz1 : z = s1
    · by_cases hy1 : y = s1
      · rw [hy1, ← hz1]; exact hz
      · have e1 : mergeInto s1 s2 z = s2 := by unfold mergeInto; rw [if_pos hz1]
        have e2 : mergeInto s1 s2 y = y := by unfold mergeInto; rw [if_neg hy1]
        rw [e1, e2] at hzy
        rw [hz1] at hz
        rw [← hzy]
        exact hfin.mp hz
    · by_cases hy1 : y = s1
      · have e1 : mergeInto s1 s2 z = z := by unfold mergeInto; rw [if_neg hz1]
        have e2 : mergeInto s1 s2 y = s2 := by unfold mergeInto; rw [if_pos hy1]
        rw [e1, e2] at hzy
        rw [hzy] at hz
        rw [hy1]
        exact hfin.mpr hz
      · have e1 : mergeInto s1 s2 z = z := by unfold mergeInto; rw [if_neg hz1]
        have e2 : mergeInto s1 s2 y = y := by unfold mergeInto; rw [if_neg hy1]
        rw [e1, e2] at hzy
        rw [← hzy]; exact hz
  · intro hy
    exact Finset.mem_image.mpr ⟨y, hy, rfl⟩

theorem replace_accepts {α σ : Type} [DecidableEq α] [DecidableEq σ]
    (M : FSM α σ) (s1 s2 : σ) (hv : M.Valid) (heq : M.equivalent s1 s2 = true) :
    ∀ w, InAlpha M.alphabet w → (M.replace s1 s2).accepts w = M.accepts w := by
  intro w hw
  unfold FSM.accepts
  apply decide_eq_decide.mpr
  have h1 : (M.replace s1 s2).initial = mergeInto s1 s2 M.initial := rfl
  rw [h1, replace_foldl M s1 s2 hv heq w hw M.initial hv.1]
  exact replace_finals_iff M s1 s2 heq _

theorem replace_valid {α σ : Type} [DecidableEq σ] (M : FSM α σ) (s1 s2 : σ)
    (h2 : s2 ∈ M.states) (hv : M.Valid) : (M.replace s1 s2).Valid := by
  refine ⟨Finset.mem_image.mpr ⟨M.initial, hv.1, rfl⟩, ?_, ?_⟩
  · intro x hx
    obtain ⟨z, hz, hzx⟩ := Finset.mem_image.mp hx
    exact Finset.mem_image.mpr ⟨z, hv.2.1 hz, hzx⟩
  · intro s hs a ha
    have hs2 : s ∈ M.states := replace_states_subset M s1 s2 h2 hs
    exact Finset.mem_image.mpr ⟨M.map s a, hv.2.2 s hs2 a ha, rfl⟩

theorem automergeFuel_master {α σ : Type} [DecidableEq α] [LinearOrder σ] :
    ∀ fuel (M : FSM α σ), M.states.card < fuel →
      (automergeFuel fuel M).alphabet = M.alphabet ∧
      (automergeFuel fuel M).states.card ≤ M.states.card ∧
      (automergeFuel fuel M).findMergePair = none ∧
      (M.Valid → (automergeFuel fuel M).Valid ∧
        ∀ w, InAlpha M.alphabet w →
          (automergeFuel fuel M).accepts w = M.accepts w) := by
  intro fuel
  induction fuel with
  | zero => intro M hM; omega
  | succ n ih =>
      intro M hM
      rcases h : M.findMergePair with _ | ⟨t, u⟩
      · have he : automergeFuel (n + 1) M = M := by
          conv_lhs => rw [automergeFuel]
          rw [h]
        rw [he]
        exact ⟨rfl, le_refl _, h, fun hv => ⟨hv, fun _ _ => rfl⟩⟩
      · have he : automergeFuel (n + 1) M = automergeFuel n (M.replace t u) := by
          conv_lhs => rw [automergeFuel]
          rw [h]
        obtain ⟨ht, hu, hne, heq⟩ := findMergePair_some M t u h
        have hcard := replace_card_lt M t u ht hu hne
        rw [he]
        obtain ⟨ih1, ih2, ih3, ih4⟩ := ih (M.replace t u) (by omega)
        refine ⟨ih1, by omega, ih3, ?_⟩
        intro hv
        obtain ⟨hrv, hracc⟩ := ih4 (replace_valid M t u hu hv)
        refine ⟨hrv, ?_⟩
        intro w hw
        rw [hracc w hw]
        exact replace_accepts M t u hv heq w hw

theorem automerge_alphabet {α σ : Type} [DecidableEq α] [LinearOrder σ]
    (M : FSM α σ) : M.automerge.alphabet = M.alphabet :=
  (automergeFuel_master (M.states.card + 1) M (by omega)).1

theorem automerge_card_le {α σ : Type} [DecidableEq α] [LinearOrder σ]
    (M : FSM α σ) : M.automerge.states.card ≤ M.states.card :=
  (automergeFuel_master (M.states.card + 1) M (by omega)).2.1

theorem automerge_fix {α σ : Type} [DecidableEq α] [LinearOrder σ]
    (M : FSM α σ) : M.automerge.findMergePair = none :=
  (automergeFuel_master (M.states.card + 1) M (by omega)).2.2.1

theorem automerge_valid {α σ : Type} [DecidableEq α] [LinearOrder σ]
    (M : FSM α σ) (hv : M.Valid) : M.automerge.Valid :=
  ((automergeFuel_master (M.states.card + 1) M (by omega)).2.2.2 hv).1

theorem automerge_accepts {α σ : Type} [DecidableEq α] [LinearOrder σ]
    (M : FSM α σ) (hv : M.Valid) (w : List α) (hw : InAlpha M.alphabet w) :
    M.automerge.accepts w = M.accepts w :=
  ((automergeFuel_master (M.states.card + 1) M (by omega)).2.2.2 hv).2 w hw

/-- C5: `automerge` terminates — witnessed by the strict state-count decrease
of each merge, which is the well-founded measure of its recursion (third
conjunct) — and returns an automaton with at most as many states as the
original (first conjunct) in which no two distinct states are `equivalent`
(second conjunct). -/
theorem automerge_minimizes {α σ : Type} [DecidableEq α] [LinearOrder σ]
    (M : FSM α σ) :
    M.automerge.states.card ≤ M.states.card
    ∧ (∀ s ∈ M.automerge.states, ∀ t ∈ M.automerge.states, s ≠ t →
        M.automerge.equivalent s t = false)
    ∧ (∀ t u, M.findMergePair = some (t, u) →
        (M.replace t u).states.card < M.states.card) := by
  refine ⟨automerge_card_le M, ?_, ?_⟩
  · intro s hs t ht hst
    exact findMergePair_none M.automerge (automerge_fix M) s hs t ht
      (Ne.symm hst)
  · intro t u h
    obtain ⟨ht, hu, hne, _⟩ := findMergePair_some M t u h
    exact replace_card_lt M t u ht hu hne

/-- Witness for C5 at concrete automata: the two-state `epsilon {0}` machine
is already merge-free and keeps both its states distinct and inequivalent,
while a two-state machine whose states are genuinely equivalent yields a merge
pair whose replacement strictly shrinks the state set. -/
theorem automerge_minimizes_witness :
    (epsilon {0}).automerge.equivalent 0 1 = false ∧
    ((FSM.mk ({0} : Finset ℕ) ({0, 1} : Finset ℕ) 0 ({0, 1} : Finset ℕ)
        (fun _ _ => 1)).replace 0 1).states.card <
      (FSM.mk ({0} : Finset ℕ) ({0, 1} : Finset ℕ) 0 ({0, 1} : Finset ℕ)
        (fun _ _ => 1)).states.card := by
  constructor
  · exact (automerge_minimizes (epsilon {0})).2.1 0 (by decide) 1 (by decide)
      (by decide)
  · exact (automerge_minimizes (FSM.mk ({0} : Finset ℕ) ({0, 1} : Finset ℕ) 0
      ({0, 1} : Finset ℕ) (fun _ _ => 1))).2.2 0 1 (by decide)

/-- `sorted(alphabet, key=str)`: the fixed total symbol order used by `_crawl`
and by the extraction algorithm, applied to the alphabet as presented by
(order-unstable) Python set iteration. -/
def sortSyms {α : Type} [LinearOrder α] (pres : List α) : List α :=
  List.insertionSort (· ≤ ·) pres

theorem mem_sortSyms {α : Type} [LinearOrder α] (pres : List α) (a : α) :
    a ∈ sortSyms pres ↔ a ∈ pres :=
  List.Perm.mem_iff (List.perm_insertionSort _ pres)

theorem sortSyms_eq_of_perm {α : Type} [LinearOrder α] {p₁ p₂ : List α}
    (h : p₁.Perm p₂) : sortSyms p₁ = sortSyms p₂ :=
  List.eq_of_perm_of_sorted
    ((List.perm_insertionSort _ p₁).trans
      (h.trans (List.perm_insertionSort _ p₂).symm))
    (List.sorted_insertionSort _ p₁) (List.sorted_insertionSort _ p₂)

/-- The per-state body of the `_crawl` loop: for each symbol in order, compute
the successor superstate, look it up among the discovered superstates
(`states.index(nextState)`) or append it as newly discovered
(`j = len(states)`), and record `(symbol, j)` in this state's transition row.
The Python `for symbol in sorted(...)` loop threads the growing list through
the iterations; here that threading is the recursion on the symbol list, with
the row entry for the current symbol placed in front of the entries of the
remaining symbols, preserving the recording order. -/
def crawlStep {α S : Type} [DecidableEq S] (getNext : S → α → S) (st : S) :
    List α → List S → List S × List (α × ℕ)
  | [], sts => (sts, [])
  | a :: rest, sts =>
      let nxt := getNext st a
      if nxt ∈ sts then
        let out := crawlStep getNext st rest sts
        (out.1, (a, sts.indexOf nxt) :: out.2)
      else
        let out := crawlStep getNext st rest (sts ++ [nxt])
        (out.1, (a, sts.length) :: out.2)

/-- The `while i < len(states)` worklist loop of `_crawl`, spending one unit
of fuel per iteration. -/
def crawlLoop {α S : Type} [DecidableEq S] (alphaS : List α)
    (isFinal : S → Bool) (getNext : S → α → S) :
    ℕ → List S → Finset ℕ → List (List (α × ℕ)) → ℕ →
      Option (List S × Finset ℕ × List (List (α × ℕ)))
  | 0, sts, fins, rows, i =>
      if i < sts.length then none else some (sts, fins, rows)
  | fuel + 1, sts, fins, rows, i =>
      if h : i < sts.length then
        let st := sts.get ⟨i, h⟩
        let fins2 := if isFinal st then insert i fins else fins
        let step := crawlStep getNext st alphaS sts
        crawlLoop alphaS isFinal getNext fuel step.1 fins2
          (rows ++ [step.2]) (i + 1)
      else some (sts, fins, rows)

/-- The integer automaton assembled at the end of `_crawl`, before
minimization: states are the discovery indices, the initial state is index 0,
and each transition row is read back from the recorded table. -/
def crawlRaw {α S : Type} [DecidableEq α]
    (pres : List α) (out : List S × Finset ℕ × List (List (α × ℕ))) :
    FSM α ℕ :=
  FSM.mk pres.toFinset (Finset.range out.1.length) 0 out.2.1
    (fun i a => (findKey (out.2.2.getD i []) a).getD 0)

/-- `_crawl`: explore the superstate space from `initial` breadth-first,
assign discovery indices, build the integer automaton, and `automerge` it
before returning. -/
def crawl {α S : Type} [LinearOrder α] [DecidableEq S] (pres : List α)
    (initial : S) (isFinal : S → Bool) (getNext : S → α → S) (fuel : ℕ) :
    Option (FSM α ℕ) :=
  (crawlLoop (sortSyms pres) isFinal getNext fuel [initial] ∅ [] 0).map
    fun out => (crawlRaw pres out).automerge

theorem crawlStep_extends {α S : Type} [DecidableEq S] (getNext : S → α → S)
    (st : S) : ∀ (alphaS : List α) (sts : List S),
    ∃ ext, (crawlStep getNext st alphaS sts).1 = sts ++ ext := by
  intro alphaS
  induction alphaS with
  | nil => intro sts; exact ⟨[], by simp [crawlStep]⟩
  | cons a rest ih =>
      intro sts
      unfold crawlStep
      by_cases h : getNext st a ∈ sts
      · rw [if_pos h]
        exact ih sts
      · rw [if_neg h]
        obtain ⟨ext, hext⟩ := ih (sts ++ [getNext st a])
        exact ⟨[getNext st a] ++ ext, by rw [hext, List.append_assoc]⟩

theorem crawlStep_nodup {α S : Type} [DecidableEq S] (getNext : S → α → S)
    (st : S) : ∀ (alphaS : List α) (sts : List S), sts.Nodup →
    (crawlStep getNext st alphaS sts).1.Nodup := by
  intro alphaS
  induction alphaS with
  | nil => intro sts h; exact h
  | cons a rest ih =>
      intro sts h
      unfold crawlStep
      by_cases hm : getNext st a ∈ sts
      · rw [if_pos hm]; exact ih sts h
      · rw [if_neg hm]
        refine ih (sts ++ [getNext st a]) ?_
        rw [List.nodup_append]
        exact ⟨h, List.nodup_singleton _, by simpa using hm⟩

theorem crawlStep_row {α S : Type} [DecidableEq α] [DecidableEq S]
    (getNext : S → α → S)
    (st : S) : ∀ (alphaS : List α) (sts : List S), alphaS.Nodup →
    ∀ b ∈ alphaS,
      getNext st b ∈ (crawlStep getNext st alphaS sts).1 ∧
      findKey (crawlStep getNext st alphaS sts).2 b =
        some ((crawlStep getNext st alphaS sts).1.indexOf (getNext st b)) := by
  intro alphaS
  induction alphaS with
  | nil => intro sts _ b hb; simp at hb
  | cons a rest ih =>
      intro sts hnd b hb
      have hand := List.nodup_cons.mp hnd
      unfold crawlStep
      by_cases hm : getNext st a ∈ sts
      · rw [if_pos hm]
        obtain ⟨ext, hext⟩ := crawlStep_extends getNext st rest sts
        rcases List.mem_cons.mp hb with hba | hbr
        · subst hba
          have hmem : getNext st b ∈ (crawlStep getNext st rest sts).1 := by
            rw [hext]; exact List.mem_append_left _ hm
          refine ⟨hmem, ?_⟩
          have hkey : findKey ((b, sts.indexOf (getNext st b)) ::
              (crawlStep getNext st rest sts).2) b =
              some (sts.indexOf (getNext st b)) := by
            unfold findKey
            rw [List.find?_cons_of_pos _ (by simp)]
            rfl
          rw [hkey, hext, List.indexOf_append_of_mem hm]
        · have hne : b ≠ a := fun hc => hand.1 (hc ▸ hbr)
          obtain ⟨hmem, hkey⟩ := ih sts hand.2 b hbr
          refine ⟨hmem, ?_⟩
          unfold findKey
          rw [List.find?_cons_of_neg _ (by simp [Ne.symm hne])]
          exact hkey
      · rw [if_neg hm]
        obtain ⟨ext, hext⟩ := crawlStep_extends getNext st rest
          (sts ++ [getNext st a])
        rcases List.mem_cons.mp hb with hba | hbr
        · subst hba
          have hm2 : getNext st b ∈ sts ++ [getNext st b] :=
            List.mem_append_right _ (List.mem_singleton_self _)
          have hmem : getNext st b ∈ (crawlStep getNext st rest
              (sts ++ [getNext st b])).1 := by
            rw [hext]; exact List.mem_append_left _ hm2
          refine ⟨hmem, ?_⟩
          have hkey : findKey ((b, sts.length) ::
              (crawlStep getNext st rest (sts ++ [getNext st b])).2) b =
              some sts.length := by
            unfold findKey
            rw [List.find?_cons_of_pos _ (by simp)]
            rfl
          rw [hkey, hext, List.indexOf_append_of_mem hm2,
            List.indexOf_append_of_not_mem hm, List.indexOf_cons_self]
          simp
        · have hne : b ≠ a := fun hc => hand.1 (hc ▸ hbr)
          obtain ⟨hmem, hkey⟩ := ih (sts ++ [getNext st a]) hand.2 b hbr
          refine ⟨hmem, ?_⟩
          unfold findKey
          rw [List.find?_cons_of_neg _ (by simp [Ne.symm hne])]
          exact hkey

theorem getD_append_left {S : Type} (l ext : List S) (k : ℕ) (d : S)
    (h : k < l.length) : (l ++ ext).getD k d = l.getD k d := by
  rw [List.getD_eq_getElem _ _ (by simp; omega), List.getD_eq_getElem _ _ h]
  exact List.getElem_append_left h

/-- Loop invariant of the `_crawl` worklist: the discovered list starts with
the initial superstate and is duplicate-free; one transition row has been
recorded per processed index; each processed index has, for every symbol, its
successor already discovered and its row entry holding the successor's
discovery index; and the recorded finals are exactly the processed indices
whose superstate satisfies `isFinal`. -/
def CrawlInv {α S : Type} [DecidableEq α] [DecidableEq S] (alphaS : List α)
    (isFinal : S → Bool) (getNext : S → α → S) (init : S)
    (sts : List S) (fins : Finset ℕ) (rows : List (List (α × ℕ))) (i : ℕ) :
    Prop :=
  sts.head? = some init ∧ sts.Nodup ∧ rows.length = i ∧ i ≤ sts.length ∧
  (∀ k, k < i → ∀ b ∈ alphaS,
    getNext (sts.getD k init) b ∈ sts ∧
    findKey (rows.getD k []) b =
      some (sts.indexOf (getNext (sts.getD k init) b))) ∧
  (∀ j, j ∈ fins ↔ (j < i ∧ isFinal (sts.getD j init) = true))

theorem crawlLoop_spec {α S : Type} [DecidableEq α] [DecidableEq S]
    (alphaS : List α) (isFinal : S → Bool) (getNext : S → α → S) (init : S)
    (hα : alphaS.Nodup) :
    ∀ fuel sts fins rows i out,
      CrawlInv alphaS isFinal getNext init sts fins rows i →
      crawlLoop alphaS isFinal getNext fuel sts fins rows i = some out →
      CrawlInv alphaS isFinal getNext init out.1 out.2.1 out.2.2
        out.1.length := by
  intro fuel
  induction fuel with
  | zero =>
      intro sts fins rows i out hInv hout
      unfold crawlLoop at hout
      split_ifs at hout with h
      cases hout
      have : i = sts.length := le_antisymm hInv.2.2.2.1 (not_lt.mp h)
      exact this ▸ hInv
  | succ n ih =>
      intro sts fins rows i out hInv hout
      obtain ⟨hhead, hnd, hrows, hile, htrans, hfins⟩ := hInv
      unfold crawlLoop at hout
      split_ifs at hout with h
      · set st := sts.get ⟨i, h⟩ with hst
        set step := crawlStep getNext st alphaS sts with hstep
        obtain ⟨ext, hext⟩ := crawlStep_extends getNext st alphaS sts
        have hlen : sts.length ≤ step.1.length := by
          rw [hext]; simp
        have hmono : ∀ x ∈ sts, x ∈ step.1 := by
          intro x hx; rw [hext]; exact List.mem_append_left _ hx
        have hgetD : ∀ k, k < sts.length → ∀ d, step.1.getD k d = sts.getD k d := by
          intro k hk d; rw [hext]; exact getD_append_left _ _ _ _ hk
        have hidx : ∀ x ∈ sts, step.1.indexOf x = sts.indexOf x := by
          intro x hx; rw [hext]; exact List.indexOf_append_of_mem hx
        refine ih step.1 _ (rows ++ [step.2]) (i + 1) out ?_ hout
        refine ⟨?_, crawlStep_nodup getNext st alphaS sts hnd, by simp [hrows],
          by omega, ?_, ?_⟩
        · rcases sts with _ | ⟨x, tl⟩
          · simp at hhead
          · have hx : x = init := by simpa using hhead
            subst hx
            rw [hext]
            rfl
        · intro k hk b hb
          rcases Nat.lt_succ_iff_lt_or_eq.mp hk with hki | hki
          · obtain ⟨hmem, hkey⟩ := htrans k hki b hb
            have hk2 : k < sts.length := lt_of_lt_of_le hki hile
            refine ⟨by rw [hgetD k hk2]; exact hmono _ hmem, ?_⟩
            have hrget : (rows ++ [step.2]).getD k [] = rows.getD k [] :=
              getD_append_left _ _ _ _ (by omega)
            rw [hrget, hgetD k hk2, hidx _ hmem]
            exact hkey
          · subst hki
            have hget : step.1.getD k init = st := by
              rw [hgetD k h, List.getD_eq_getElem _ _ h, hst]
              rfl
            have hrget : (rows ++ [step.2]).getD k [] = step.2 := by
              subst hrows
              rw [List.getD_eq_getElem _ _ (by simp)]
              simp
            obtain ⟨hmem, hkey⟩ := crawlStep_row getNext st alphaS sts hα b hb
            rw [hget, hrget]
            exact ⟨hmem, hkey⟩
        · intro j
          have hstepfin : ∀ j, j < i + 1 →
              step.1.getD j init = sts.getD j init := by
            intro j hj
            exact hgetD j (by omega) init
          by_cases hf : isFinal st
          · rw [if_pos hf]
            rw [Finset.mem_insert]
            constructor
            · rintro (hj | hj)
              · refine ⟨by omega, ?_⟩
                rw [hj, hstepfin i (by omega), List.getD_eq_getElem _ _ h]
                exact hf
              · obtain ⟨hj1, hj2⟩ := (hfins j).mp hj
                exact ⟨by omega, by rw [hstepfin j (by omega)]; exact hj2⟩
            · rintro ⟨hj1, hj2⟩
              rcases Nat.lt_succ_iff_lt_or_eq.mp hj1 with hji | hji
              · right
                refine (hfins j).mpr ⟨hji, ?_⟩
                rw [← hstepfin j (by omega)]
                exact hj2
              · left; exact hji
          · rw [if_neg hf]
            constructor
            · intro hj
              obtain ⟨hj1, hj2⟩ := (hfins j).mp hj
              exact ⟨by omega, by rw [hstepfin j (by omega)]; exact hj2⟩
            · rintro ⟨hj1, hj2⟩
              rcases Nat.lt_succ_iff_lt_or_eq.mp hj1 with hji | hji
              · refine (hfins j).mpr ⟨hji, ?_⟩
                rw [← hstepfin j (by omega)]
                exact hj2
              · exfalso
                apply hf
                rw [hji] at hj2
                rw [hstepfin i (by omega), List.getD_eq_getElem _ _ h] at hj2
                exact hj2
      · cases hout
        have : i = sts.length := le_antisymm hile (not_lt.mp h)
        exact this ▸ ⟨hhead, hnd, hrows, hile, htrans, hfins⟩

theorem nodup_indexOf_getD {S : Type} [DecidableEq S] (l : List S)
    (hn : l.Nodup) (k : ℕ) (hk : k < l.length) (d : S) :
    l.indexOf (l.getD k d) = k := by
  rw [List.getD_eq_getElem _ _ hk]
  have hmem : l.get ⟨k, hk⟩ ∈ l := List.get_mem l k hk
  have hlt : List.indexOf (l.get ⟨k, hk⟩) l < l.length :=
    List.indexOf_lt_length.mpr hmem
  have h2 := List.indexOf_get (a := l.get ⟨k, hk⟩) (l := l) hlt
  exact (List.Nodup.getElem_inj_iff hn).mp h2

theorem getD_mem {S : Type} (l : List S) (k : ℕ) (hk : k < l.length) (d : S) :
    l.getD k d ∈ l := by
  rw [List.getD_eq_getElem _ _ hk]
  exact List.get_mem l k hk

/-- Run correspondence for the raw crawled automaton: reading a sequence from
discovery index `k` follows exactly the discovery indices of the abstract
superstate run. -/
theorem crawlRaw_foldl {α S : Type} [DecidableEq α] [DecidableEq S]
    (alphaS pres : List α) (isFinal : S → Bool) (getNext : S → α → S)
    (init : S) (out : List S × Finset ℕ × List (List (α × ℕ)))
    (hInv : CrawlInv alphaS isFinal getNext init out.1 out.2.1 out.2.2
      out.1.length) :
    ∀ (w : List α), (∀ b ∈ w, b ∈ alphaS) → ∀ k, k < out.1.length →
      w.foldl (crawlRaw pres out).map k =
        out.1.indexOf (w.foldl getNext (out.1.getD k init)) ∧
      w.foldl getNext (out.1.getD k init) ∈ out.1 := by
  obtain ⟨hhead, hnd, hrows, hile, htrans, hfins⟩ := hInv
  intro w
  induction w with
  | nil =>
      intro _ k hk
      exact ⟨(nodup_indexOf_getD _ hnd k hk init).symm ▸ rfl,
        getD_mem _ k hk init⟩
  | cons a w ih =>
      intro hw k hk
      have ha : a ∈ alphaS := hw a (List.mem_cons_self _ _)
      have hw2 : ∀ b ∈ w, b ∈ alphaS := fun b hb => hw b (List.mem_cons_of_mem _ hb)
      obtain ⟨hmem, hkey⟩ := htrans k hk a ha
      have hidxlt : out.1.indexOf (getNext (out.1.getD k init) a) < out.1.length :=
        List.indexOf_lt_length.mpr hmem
      have hmap : (crawlRaw pres out).map k a =
          out.1.indexOf (getNext (out.1.getD k init) a) := by
        show (findKey (out.2.2.getD k []) a).getD 0 = _
        rw [hkey]
        rfl
      have hgetidx : out.1.getD (out.1.indexOf (getNext (out.1.getD k init) a))
          init = getNext (out.1.getD k init) a := by
        rw [List.getD_eq_getElem _ _ hidxlt]
        exact List.getElem_indexOf hidxlt
      have hstep := ih hw2 _ hidxlt
      rw [hgetidx] at hstep
      rw [List.foldl_cons, List.foldl_cons, hmap]
      exact hstep

/-- The language and validity of a successful `_crawl`: the returned automaton
is valid, carries the presented alphabet (as a set), and accepts exactly the
sequences whose abstract superstate run ends in a final superstate. -/
theorem crawl_spec {α S : Type} [LinearOrder α] [DecidableEq S]
    (pres : List α) (init : S) (isFinal : S → Bool) (getNext : S → α → S)
    (fuel : ℕ) (M : FSM α ℕ) (hpres : pres.Nodup)
    (h : crawl pres init isFinal getNext fuel = some M) :
    M.alphabet = pres.toFinset ∧ M.Valid ∧
    ∀ w, InAlpha pres.toFinset w →
      M.accepts w = isFinal (w.foldl getNext init) := by
  unfold crawl at h
  obtain ⟨out, hout, hM⟩ := Option.map_eq_some'.mp h
  have hα : (sortSyms pres).Nodup :=
    (List.Perm.nodup_iff (List.perm_insertionSort _ pres)).mpr hpres
  have hInv0 : CrawlInv (sortSyms pres) isFinal getNext init [init] ∅ [] 0 := by
    refine ⟨rfl, List.nodup_singleton _, rfl, by simp, ?_, ?_⟩
    · intro k hk; omega
    · intro j; simp
  have hInv := crawlLoop_spec (sortSyms pres) isFinal getNext init hα
    fuel [init] ∅ [] 0 out hInv0 hout
  obtain ⟨hhead, hnd, hrows, hile, htrans, hfins⟩ := hInv
  have hne : out.1 ≠ [] := by
    intro hc; rw [hc] at hhead; cases hhead
  have hn0 : 0 < out.1.length := List.length_pos.mpr hne
  have hget0 : out.1.getD 0 init = init := by
    rcases hout1 : out.1 with _ | ⟨x, tl⟩
    · exact absurd hout1 hne
    · rw [hout1] at hhead
      have : x = init := by simpa using hhead
      rw [this]
      rfl
  have hmemS : ∀ a, a ∈ pres.toFinset ↔ a ∈ sortSyms pres := by
    intro a
    rw [List.mem_toFinset, mem_sortSyms]
  have hraw : (crawlRaw pres out).Valid := by
    refine ⟨Finset.mem_range.mpr hn0, ?_, ?_⟩
    · intro j hj
      exact Finset.mem_range.mpr ((hfins j).mp hj).1
    · intro s hs a ha
      have hs2 : s < out.1.length := Finset.mem_range.mp hs
      have ha2 : a ∈ sortSyms pres := (hmemS a).mp ha
      obtain ⟨hmem, hkey⟩ := htrans s hs2 a ha2
      have : (crawlRaw pres out).map s a =
          out.1.indexOf (getNext (out.1.getD s init) a) := by
        show (findKey (out.2.2.getD s []) a).getD 0 = _
        rw [hkey]
        rfl
      rw [this]
      exact Finset.mem_range.mpr (List.indexOf_lt_length.mpr hmem)
  refine ⟨?_, ?_, ?_⟩
  · rw [← hM, automerge_alphabet]
    rfl
  · rw [← hM]
    exact automerge_valid _ hraw
  · intro w hw
    have hw2 : ∀ b ∈ w, b ∈ sortSyms pres := fun b hb => (hmemS b).mp (hw b hb)
    have hwA : InAlpha (crawlRaw pres out).alphabet w := hw
    rw [← hM, automerge_accepts _ hraw w hwA]
    show decide (w.foldl (crawlRaw pres out).map 0 ∈ out.2.1) = _
    obtain ⟨hfold, hmem⟩ := crawlRaw_foldl (sortSyms pres) pres isFinal getNext
      init out ⟨hhead, hnd, hrows, hile, htrans, hfins⟩ w hw2 0 hn0
    rw [hget0] at hfold hmem
    rw [hfold]
    have hidxlt : out.1.indexOf (w.foldl getNext init) < out.1.length :=
      List.indexOf_lt_length.mpr hmem
    have hgetidx : out.1.getD (out.1.indexOf (w.foldl getNext init)) init =
        w.foldl getNext init := by
      rw [List.getD_eq_getElem _ _ hidxlt]
      exact List.getElem_indexOf hidxlt
    cases hf : isFinal (w.foldl getNext init) with
    | true =>
        apply decide_eq_true
        exact (hfins _).mpr ⟨hidxlt, by rw [hgetidx]; exact hf⟩
    | false =>
        apply decide_eq_false
        intro hc
        have h2 := ((hfins _).mp hc).2
        rw [hgetidx, hf] at h2
        cases h2

theorem sortedElems_nodup {α : Type} [LinearOrder α] (s : Finset α) :
    (sortedElems s).Nodup := by
  rcases s with ⟨m, hm⟩
  induction m using Quot.inductionOn with
  | h l =>
      show (List.insertionSort (· ≤ ·) l).Nodup
      exact (List.Perm.nodup_iff (List.perm_insertionSort _ l)).mpr hm

theorem sortedElems_toFinset {α : Type} [LinearOrder α] [DecidableEq α]
    (s : Finset α) : (sortedElems s).toFinset = s := by
  apply Finset.ext
  intro a
  rw [List.mem_toFinset, mem_sortedElems]

/-- Initial superstate of `fsm.__add__`: start at `self`'s start; if that
state is already final, also start at `other`'s start. -/
def addInit {α σ₁ σ₂ : Type} [DecidableEq σ₁] [DecidableEq σ₂]
    (A : FSM α σ₁) (B : FSM α σ₂) : Finset (σ₁ ⊕ σ₂) :=
  if A.initial ∈ A.finals then {Sum.inl A.initial, Sum.inr B.initial}
  else {Sum.inl A.initial}

/-- Finality of one tagged state in `fsm.__add__.isFinal`: a `self` state
counts if it is final while `other`'s initial state is final too; an `other`
state counts if it is final. -/
def addTagFinal {α σ₁ σ₂ : Type} [DecidableEq σ₁] [DecidableEq σ₂]
    (A : FSM α σ₁) (B : FSM α σ₂) : σ₁ ⊕ σ₂ → Bool
  | Sum.inl s => decide (s ∈ A.finals) && decide (B.initial ∈ B.finals)
  | Sum.inr t => decide (t ∈ B.finals)

/-- `fsm.__add__.isFinal`: some tagged state of the set is final. -/
def addFinal {α σ₁ σ₂ : Type} [DecidableEq σ₁] [DecidableEq σ₂]
    (A : FSM α σ₁) (B : FSM α σ₂) (cur : Finset (σ₁ ⊕ σ₂)) : Bool :=
  decide (∃ x ∈ cur, addTagFinal A B x = true)

/-- `fsm.__add__.getNext`: advance every tagged state through its own
automaton; whenever the successor inside `self` is final, also enter `other`
at its initial state. -/
def addNext {α σ₁ σ₂ : Type} [DecidableEq σ₁] [DecidableEq σ₂]
    (A : FSM α σ₁) (B : FSM α σ₂) (cur : Finset (σ₁ ⊕ σ₂)) (a : α) :
    Finset (σ₁ ⊕ σ₂) :=
  cur.biUnion fun x =>
    match x with
    | Sum.inl s =>
        if A.map s a ∈ A.finals then {Sum.inl (A.map s a), Sum.inr B.initial}
        else {Sum.inl (A.map s a)}
    | Sum.inr t => {Sum.inr (B.map t a)}

/-- `fsm.__add__` (concatenation): equal alphabets required, then crawl the
tagged-state-set space.  Python hands `_crawl` the alphabet set itself; here
it is handed as its sorted enumeration (`crawl` is invariant under the choice
of enumeration, see `crawl_perm_invariant`). -/
def FSM.add {α σ₁ σ₂ : Type} [LinearOrder α] [DecidableEq σ₁] [DecidableEq σ₂]
    (A : FSM α σ₁) (B : FSM α σ₂) (fuel : ℕ) : Except FsmErr (FSM α ℕ) :=
  if B.alphabet ≠ A.alphabet then .error .alphabetMismatch
  else
    match crawl (sortedElems A.alphabet) (addInit A B) (addFinal A B)
        (addNext A B) fuel with
    | some M => .ok M
    | none => .error .outOfFuel

/-- The shared `getNext` of `fsm.__or__` and `fsm.__and__` (each defines a
textually identical local function): the synchronous product transition. -/
def pairNext {α σ₁ σ₂ : Type} (A : FSM α σ₁) (B : FSM α σ₂)
    (cur : σ₁ × σ₂) (a : α) : σ₁ × σ₂ :=
  (A.map cur.1 a, B.map cur.2 a)

/-- `fsm.__or__.isFinal`: either component is final. -/
def orFinal {α σ₁ σ₂ : Type} [DecidableEq σ₁] [DecidableEq σ₂]
    (A : FSM α σ₁) (B : FSM α σ₂) (cur : σ₁ × σ₂) : Bool :=
  decide (cur.1 ∈ A.finals ∨ cur.2 ∈ B.finals)

/-- `fsm.__and__.isFinal`: both components are final. -/
def andFinal {α σ₁ σ₂ : Type} [DecidableEq σ₁] [DecidableEq σ₂]
    (A : FSM α σ₁) (B : FSM α σ₂) (cur : σ₁ × σ₂) : Bool :=
  decide (cur.1 ∈ A.finals ∧ cur.2 ∈ B.finals)

/-- `fsm.__or__` (alternation). -/
def FSM.or {α σ₁ σ₂ : Type} [LinearOrder α] [DecidableEq σ₁] [DecidableEq σ₂]
    (A : FSM α σ₁) (B : FSM α σ₂) (fuel : ℕ) : Except FsmErr (FSM α ℕ) :=
  if B.alphabet ≠ A.alphabet then .error .alphabetMismatch
  else
    match crawl (sortedElems A.alphabet) (A.initial, B.initial) (orFinal A B)
        (pairNext A B) fuel with
    | some M => .ok M
    | none => .error .outOfFuel

/-- `fsm.__and__` (intersection). -/
def FSM.and {α σ₁ σ₂ : Type} [LinearOrder α] [DecidableEq σ₁] [DecidableEq σ₂]
    (A : FSM α σ₁) (B : FSM α σ₂) (fuel : ℕ) : Except FsmErr (FSM α ℕ) :=
  if B.alphabet ≠ A.alphabet then .error .alphabetMismatch
  else
    match crawl (sortedElems A.alphabet) (A.initial, B.initial) (andFinal A B)
        (pairNext A B) fuel with
    | some M => .ok M
    | none => .error .outOfFuel

/-- `fsm.star.getNext`: each set element advances through the automaton, the
omega marker behaving exactly like the initial state; whenever the successor
is final the omega marker is re-added, closing the loop.  The source picks a
fresh integer "omegaState" outside the state set; freshness is modelled by
the adjoined `none` of an `Option` type. -/
def starNext {α σ : Type} [DecidableEq σ] (A : FSM α σ)
    (cur : Finset (Option σ)) (a : α) : Finset (Option σ) :=
  cur.biUnion fun x =>
    let s := match x with | none => A.initial | some s => s
    if A.map s a ∈ A.finals then {some (A.map s a), none}
    else {some (A.map s a)}

/-- `fsm.star.isFinal`: the superstate contains the omega marker. -/
def starFinal {α σ : Type} [DecidableEq σ] (A : FSM α σ)
    (cur : Finset (Option σ)) : Bool :=
  decide (none ∈ cur)

/-- `fsm.star` (Kleene closure): crawl from the sole omega superstate. -/
def FSM.star {α σ : Type} [LinearOrder α] [DecidableEq σ] (A : FSM α σ)
    (fuel : ℕ) : Option (FSM α ℕ) :=
  crawl (sortedElems A.alphabet) ({none} : Finset (Option σ)) (starFinal A)
    (starNext A) fuel

/-- `fsm.__mul__`: `min` forced copies of `self` concatenated onto `epsilon`;
then, if `max` is `None`, one starred copy, else `max - min` optional copies
`q = self | epsilon` — Python's `range(min, max)` is empty whenever
`max ≤ min`, but `q` is built before the loop regardless, as in the source.
No validation of the `(min, max)` pair is performed. -/
def FSM.mul {α σ : Type} [LinearOrder α] [DecidableEq σ] (A : FSM α σ)
    (multiplier : ℕ × Option ℕ) (fuel : ℕ) : Except FsmErr (FSM α ℕ) := do
  let output ← (List.range multiplier.1).foldlM
    (fun acc _ => FSM.add acc A fuel) (epsilon A.alphabet)
  match multiplier.2 with
  | none =>
      match A.star fuel with
      | some st => FSM.add output st fuel
      | none => .error .outOfFuel
  | some mx => do
      let q ← FSM.or A (epsilon A.alphabet) fuel
      (List.range (mx - multiplier.1)).foldlM
        (fun acc _ => FSM.add acc q fuel) output

/-- C7: on operands with unequal alphabets every binary operator
(concatenation, alternation, intersection) reports the alphabet-mismatch
precondition error — the very first thing each operator checks, before any
crawling or construction — and never returns an automaton. -/
theorem binop_alphabet_mismatch {α σ₁ σ₂ : Type} [LinearOrder α]
    [DecidableEq σ₁] [DecidableEq σ₂] (A : FSM α σ₁) (B : FSM α σ₂) (fuel : ℕ)
    (h : A.alphabet ≠ B.alphabet) :
    FSM.add A B fuel = .error .alphabetMismatch ∧
    FSM.or A B fuel = .error .alphabetMismatch ∧
    FSM.and A B fuel = .error .alphabetMismatch := by
  have h2 : B.alphabet ≠ A.alphabet := Ne.symm h
  unfold FSM.add FSM.or FSM.and
  rw [if_pos h2, if_pos h2, if_pos h2]
  exact ⟨rfl, rfl, rfl⟩

/-- Witness for C7 at two single-symbol automata over different alphabets. -/
theorem binop_alphabet_mismatch_witness :
    FSM.add (epsilon ({0} : Finset ℕ)) (epsilon ({1} : Finset ℕ)) 3 =
      .error .alphabetMismatch ∧
    FSM.or (epsilon ({0} : Finset ℕ)) (epsilon ({1} : Finset ℕ)) 3 =
      .error .alphabetMismatch ∧
    FSM.and (epsilon ({0} : Finset ℕ)) (epsilon ({1} : Finset ℕ)) 3 =
      .error .alphabetMismatch :=
  binop_alphabet_mismatch _ _ 3 (by decide)

/-- C10: bounded repetition never validates its `(min, max)` pair: with a
finite `max < min` the computation coincides, step by step and in its result,
with that of `A * (min, min)` — `min` forced copies and an empty
optional-copy phase — because both `range(min, max)` and `range(min, min)`
are empty. -/
theorem mul_no_bounds_check {α σ : Type} [LinearOrder α] [DecidableEq σ]
    (A : FSM α σ) (mn mx fuel : ℕ) (h : mx < mn) :
    FSM.mul A (mn, some mx) fuel = FSM.mul A (mn, some mn) fuel := by
  unfold FSM.mul
  have h1 : mx - mn = 0 := Nat.sub_eq_zero_of_le (le_of_lt h)
  have h2 : mn - mn = 0 := Nat.sub_self mn
  simp only [h1, h2]

/-- Witness for C10: `(min, max) = (1, 0)` raises nothing and behaves as
`(1, 1)`, returning an automaton. -/
theorem mul_no_bounds_check_witness :
    FSM.mul (epsilon ({0} : Finset ℕ)) (1, some 0) 8 =
      FSM.mul (epsilon ({0} : Finset ℕ)) (1, some 1) 8 ∧
    ∃ M, FSM.mul (epsilon ({0} : Finset ℕ)) (1, some 0) 8 = Except.ok M :=
  ⟨mul_no_bounds_check _ 1 0 8 (by decide), ⟨_, rfl⟩⟩

theorem pairNext_foldl {α σ₁ σ₂ : Type} (A : FSM α σ₁) (B : FSM α σ₂) :
    ∀ (w : List α) (p : σ₁ × σ₂),
      w.foldl (pairNext A B) p = (w.foldl A.map p.1, w.foldl B.map p.2) := by
  intro w
  induction w with
  | nil => intro p; rfl
  | cons a w ih =>
      intro p
      rw [List.foldl_cons, List.foldl_cons, List.foldl_cons, ih]
      rfl

/-- C2: intersection and alternation agree with set semantics — over operands
with identical alphabets, any sequence over that alphabet accepted by `A & B`
is accepted by both `A` and `B`, and any such sequence accepted by `A | B` is
accepted by at least one of them. -/
theorem and_or_set_semantics {α σ₁ σ₂ : Type} [LinearOrder α]
    [DecidableEq σ₁] [DecidableEq σ₂] (A : FSM α σ₁) (B : FSM α σ₂) (fuel : ℕ)
    (s : List α) (hs : InAlpha A.alphabet s) :
    (∀ M, FSM.and A B fuel = .ok M → M.accepts s = true →
      A.accepts s = true ∧ B.accepts s = true) ∧
    (∀ M, FSM.or A B fuel = .ok M → M.accepts s = true →
      A.accepts s = true ∨ B.accepts s = true) := by
  have hs2 : InAlpha (sortedElems A.alphabet).toFinset s := by
    rw [sortedElems_toFinset]; exact hs
  constructor
  · intro M hM hacc
    unfold FSM.and at hM
    split_ifs at hM with hne
    rcases hc : crawl (sortedElems A.alphabet) (A.initial, B.initial)
        (andFinal A B) (pairNext A B) fuel with _ | M0
    · rw [hc] at hM; cases hM
    · rw [hc] at hM
      cases hM
      obtain ⟨halph, hval, hlang⟩ :=
        crawl_spec _ _ _ _ _ _ (sortedElems_nodup _) hc
      rw [hlang s hs2, pairNext_foldl] at hacc
      unfold andFinal at hacc
      simp only [decide_eq_true_eq] at hacc
      unfold FSM.accepts
      exact ⟨decide_eq_true hacc.1, decide_eq_true hacc.2⟩
  · intro M hM hacc
    unfold FSM.or at hM
    split_ifs at hM with hne
    rcases hc : crawl (sortedElems A.alphabet) (A.initial, B.initial)
        (orFinal A B) (pairNext A B) fuel with _ | M0
    · rw [hc] at hM; cases hM
    · rw [hc] at hM
      cases hM
      obtain ⟨halph, hval, hlang⟩ :=
        crawl_spec _ _ _ _ _ _ (sortedElems_nodup _) hc
      rw [hlang s hs2, pairNext_foldl] at hacc
      unfold orFinal at hacc
      simp only [decide_eq_true_eq] at hacc
      unfold FSM.accepts
      rcases hacc with hacc | hacc
      · exact Or.inl (decide_eq_true hacc)
      · exact Or.inr (decide_eq_true hacc)

/-- Witness for C2 at `A = B = epsilon {0}` and the empty sequence, which
`A & B` and `A | B` both accept. -/
theorem and_or_set_semantics_witness :
    ((epsilon ({0} : Finset ℕ)).accepts [] = true ∧
      (epsilon ({0} : Finset ℕ)).accepts [] = true) ∧
    ((epsilon ({0} : Finset ℕ)).accepts [] = true ∨
      (epsilon ({0} : Finset ℕ)).accepts [] = true) := by
  refine ⟨(and_or_set_semantics (epsilon {0}) (epsilon {0}) 5 []
      (by intro x hx; cases hx)).1
      ((FSM.and (epsilon ({0} : Finset ℕ)) (epsilon {0}) 5).toOption.getD
        (epsilon {0})) (by rfl) (by rfl),
    (and_or_set_semantics (epsilon {0}) (epsilon {0}) 5 []
      (by intro x hx; cases hx)).2
      ((FSM.or (epsilon ({0} : Finset ℕ)) (epsilon {0}) 5).toOption.getD
        (epsilon {0})) (by rfl) (by rfl)⟩

theorem bool_eq_of_iff {a b : Bool} (h : a = true ↔ b = true) : a = b := by
  cases a <;> cases b <;> simp_all

theorem epsilon_run {α : Type} : ∀ (w : List α) (x : ℕ), w ≠ [] →
    w.foldl (fun _ _ => 1) x = 1 := by
  intro w
  induction w with
  | nil => intro x h; exact absurd rfl h
  | cons a w ih =>
      intro x _
      rw [List.foldl_cons]
      rcases List.eq_nil_or_concat w with hw | ⟨l, b, hw⟩
      · rw [hw]; rfl
      · exact ih 1 (by rw [hw]; simp)

theorem epsilon_accepts {α : Type} (al : Finset α) (v : List α) :
    (epsilon al).accepts v = true ↔ v = [] := by
  cases v with
  | nil => simp [FSM.accepts, epsilon]
  | cons a w =>
      unfold FSM.accepts epsilon
      rw [show (a :: w).foldl (fun _ _ => 1) 0 = 1 from
        epsilon_run (a :: w) 0 (by simp)]
      simp

/-- The reachable superstate of the concatenation construction after reading
`w`: its `self`-tagged part is exactly the deterministic `A`-run on `w`, and
its `other`-tagged part holds the `B`-run on `v` for every split `w = u ++ v`
whose prefix `u` is accepted by `A`. -/
theorem add_reached {α σ₁ σ₂ : Type} [DecidableEq σ₁] [DecidableEq σ₂]
    (A : FSM α σ₁) (B : FSM α σ₂) :
    ∀ (w : List α),
      (∀ s : σ₁, Sum.inl s ∈ w.foldl (addNext A B) (addInit A B) ↔
        s = w.foldl A.map A.initial) ∧
      (∀ t : σ₂, Sum.inr t ∈ w.foldl (addNext A B) (addInit A B) ↔
        ∃ u v, w = u ++ v ∧ A.accepts u = true ∧
          t = v.foldl B.map B.initial) := by
  intro w
  induction w using List.reverseRecOn with
  | nil =>
      constructor
      · intro s
        show Sum.inl s ∈ addInit A B ↔ _
        unfold addInit
        by_cases h : A.initial ∈ A.finals
        · rw [if_pos h]; simp [eq_comm]
        · rw [if_neg h]; simp [eq_comm]
      · intro t
        show Sum.inr t ∈ addInit A B ↔ _
        unfold addInit
        constructor
        · intro hmem
          by_cases h : A.initial ∈ A.finals
          · rw [if_pos h] at hmem
            simp only [Finset.mem_insert, Finset.mem_singleton] at hmem
            rcases hmem with hmem | hmem
            · simp at hmem
            · refine ⟨[], [], rfl, ?_, Sum.inr.inj hmem⟩
              unfold FSM.accepts
              exact decide_eq_true h
          · rw [if_neg h] at hmem
            simp at hmem
        · rintro ⟨u, v, hsplit, hu, ht⟩
          obtain ⟨hu0, hv0⟩ := List.append_eq_nil.mp hsplit.symm
          subst hu0; subst hv0
          have h : A.initial ∈ A.finals := by
            unfold FSM.accepts at hu
            exact of_decide_eq_true hu
          rw [if_pos h]
          subst ht
          simp
  | append_singleton w a ih =>
      obtain ⟨ihl, ihr⟩ := ih
      have hstep : (w ++ [a]).foldl (addNext A B) (addInit A B) =
          addNext A B (w.foldl (addNext A B) (addInit A B)) a := by
        rw [List.foldl_append]; rfl
      have hrunA : (w ++ [a]).foldl A.map A.initial =
          A.map (w.foldl A.map A.initial) a := by
        rw [List.foldl_append]; rfl
      constructor
      · intro s
        rw [hstep, hrunA]
        unfold addNext
        rw [Finset.mem_biUnion]
        constructor
        · rintro ⟨x, hx, hmem⟩
          rcases x with s2 | t2
          · have hs2 : s2 = w.foldl A.map A.initial := (ihl s2).mp hx
            subst hs2
            have hmem2 : Sum.inl s ∈
                (if A.map (w.foldl A.map A.initial) a ∈ A.finals then
                  ({Sum.inl (A.map (w.foldl A.map A.initial) a),
                    Sum.inr B.initial} : Finset (σ₁ ⊕ σ₂))
                else {Sum.inl (A.map (w.foldl A.map A.initial) a)}) := hmem
            split_ifs at hmem2 with hf
            · simp only [Finset.mem_insert, Finset.mem_singleton] at hmem2
              rcases hmem2 with hmem2 | hmem2
              · exact Sum.inl.inj hmem2
              · simp at hmem2
            · simp only [Finset.mem_singleton] at hmem2
              exact Sum.inl.inj hmem2
          · have hmem2 : Sum.inl s ∈
                ({Sum.inr (B.map t2 a)} : Finset (σ₁ ⊕ σ₂)) := hmem
            simp at hmem2
        · intro hs
          subst hs
          refine ⟨Sum.inl (w.foldl A.map A.initial), (ihl _).mpr rfl, ?_⟩
          show Sum.inl (A.map (w.foldl A.map A.initial) a) ∈
            (if A.map (w.foldl A.map A.initial) a ∈ A.finals then
              ({Sum.inl (A.map (w.foldl A.map A.initial) a),
                Sum.inr B.initial} : Finset (σ₁ ⊕ σ₂))
            else {Sum.inl (A.map (w.foldl A.map A.initial) a)})
          split_ifs <;> simp
      · intro t
        rw [hstep]
        unfold addNext
        rw [Finset.mem_biUnion]
        constructor
        · rintro ⟨x, hx, hmem⟩
          rcases x with s2 | t2
          · have hs2 : s2 = w.foldl A.map A.initial := (ihl s2).mp hx
            subst hs2
            have hmem2 : Sum.inr t ∈
                (if A.map (w.foldl A.map A.initial) a ∈ A.finals then
                  ({Sum.inl (A.map (w.foldl A.map A.initial) a),
                    Sum.inr B.initial} : Finset (σ₁ ⊕ σ₂))
                else {Sum.inl (A.map (w.foldl A.map A.initial) a)}) := hmem
            split_ifs at hmem2 with hf
            · simp only [Finset.mem_insert, Finset.mem_singleton] at hmem2
              rcases hmem2 with hmem2 | hmem2
              · simp at hmem2
              · refine ⟨w ++ [a], [], by simp, ?_, Sum.inr.inj hmem2⟩
                unfold FSM.accepts
                rw [hrunA]
                exact decide_eq_true hf
            · simp only [Finset.mem_singleton] at hmem2
              simp at hmem2
          · have hmem2 : Sum.inr t ∈
                ({Sum.inr (B.map t2 a)} : Finset (σ₁ ⊕ σ₂)) := hmem
            simp only [Finset.mem_singleton] at hmem2
            have ht2 : t = B.map t2 a := Sum.inr.inj hmem2
            obtain ⟨u, v, hsplit, hu, htv⟩ := (ihr t2).mp hx
            refine ⟨u, v ++ [a], by rw [hsplit, List.append_assoc], hu, ?_⟩
            rw [List.foldl_append, ← htv, ht2]
            rfl
        · rintro ⟨u, v, hsplit, hu, ht⟩
          rcases List.eq_nil_or_concat v with hv | ⟨v2, b, hv⟩
          · subst hv
            have huw : u = w ++ [a] := by simpa using hsplit.symm
            refine ⟨Sum.inl (w.foldl A.map A.initial), (ihl _).mpr rfl, ?_⟩
            have hf : A.map (w.foldl A.map A.initial) a ∈ A.finals := by
              have h2 : A.accepts (w ++ [a]) = true := huw ▸ hu
              unfold FSM.accepts at h2
              rw [hrunA] at h2
              exact of_decide_eq_true h2
            show Sum.inr t ∈
              (if A.map (w.foldl A.map A.initial) a ∈ A.finals then
                ({Sum.inl (A.map (w.foldl A.map A.initial) a),
                  Sum.inr B.initial} : Finset (σ₁ ⊕ σ₂))
              else {Sum.inl (A.map (w.foldl A.map A.initial) a)})
            rw [if_pos hf]
            subst ht
            simp
          · rw [List.concat_eq_append] at hv
            subst hv
            obtain ⟨hw, hb⟩ : u ++ v2 = w ∧ [b] = [a] :=
              List.append_inj' (by rw [List.append_assoc]; exact hsplit.symm) rfl
            have hba : b = a := by injection hb
            rw [hba] at ht
            refine ⟨Sum.inr (v2.foldl B.map B.initial),
              (ihr _).mpr ⟨u, v2, hw.symm, hu, rfl⟩, ?_⟩
            show Sum.inr t ∈
              ({Sum.inr (B.map (v2.foldl B.map B.initial) a)} :
                Finset (σ₁ ⊕ σ₂))
            have ht2 : t = B.map (v2.foldl B.map B.initial) a := by
              rw [ht, List.foldl_append]
              rfl
            rw [ht2]
            simp

/-- Language of the concatenation construction: a sequence is accepted iff it
splits into an `A`-accepted prefix and a `B`-accepted suffix. -/
theorem add_lang {α σ₁ σ₂ : Type} [DecidableEq σ₁] [DecidableEq σ₂]
    (A : FSM α σ₁) (B : FSM α σ₂) (w : List α) :
    addFinal A B (w.foldl (addNext A B) (addInit A B)) = true ↔
    ∃ u v, w = u ++ v ∧ A.accepts u = true ∧ B.accepts v = true := by
  obtain ⟨ihl, ihr⟩ := add_reached A B w
  unfold addFinal
  rw [decide_eq_true_eq]
  constructor
  · rintro ⟨x, hx, htag⟩
    rcases x with s | t
    · have hs : s = w.foldl A.map A.initial := (ihl s).mp hx
      have htag2 : (decide (s ∈ A.finals) &&
          decide (B.initial ∈ B.finals)) = true := htag
      rw [Bool.and_eq_true, decide_eq_true_eq, decide_eq_true_eq] at htag2
      refine ⟨w, [], by simp, ?_, ?_⟩
      · unfold FSM.accepts
        exact decide_eq_true (hs ▸ htag2.1)
      · unfold FSM.accepts
        exact decide_eq_true htag2.2
    · obtain ⟨u, v, hsplit, hu, ht⟩ := (ihr t).mp hx
      have htag2 : t ∈ B.finals := of_decide_eq_true htag
      refine ⟨u, v, hsplit, hu, ?_⟩
      unfold FSM.accepts
      exact decide_eq_true (ht ▸ htag2)
  · rintro ⟨u, v, hsplit, hu, hv⟩
    refine ⟨Sum.inr (v.foldl B.map B.initial),
      (ihr _).mpr ⟨u, v, hsplit, hu, rfl⟩, ?_⟩
    exact hv

/-- C3: concatenating `epsilon` (over the same alphabet) on either side of an
automaton accepts exactly the sequences the automaton accepts: `epsilon` is
the identity of concatenation up to accepted language. -/
theorem concat_epsilon_identity {α σ : Type} [LinearOrder α] [DecidableEq σ]
    (A : FSM α σ) (fuel : ℕ) (s : List α) (hs : InAlpha A.alphabet s) :
    (∀ M, FSM.add A (epsilon A.alphabet) fuel = .ok M →
      M.accepts s = A.accepts s) ∧
    (∀ M, FSM.add (epsilon A.alphabet) A fuel = .ok M →
      M.accepts s = A.accepts s) := by
  constructor
  · intro M hM
    unfold FSM.add at hM
    split_ifs at hM with hne
    rcases hc : crawl (sortedElems A.alphabet)
        (addInit A (epsilon A.alphabet)) (addFinal A (epsilon A.alphabet))
        (addNext A (epsilon A.alphabet)) fuel with _ | M0
    · rw [hc] at hM; cases hM
    · rw [hc] at hM
      cases hM
      obtain ⟨halph, hval, hlang⟩ :=
        crawl_spec _ _ _ _ _ _ (sortedElems_nodup _) hc
      have hs2 : InAlpha (sortedElems A.alphabet).toFinset s := by
        rw [sortedElems_toFinset]; exact hs
      rw [hlang s hs2]
      apply bool_eq_of_iff
      rw [add_lang]
      constructor
      · rintro ⟨u, v, hsplit, hu, hv⟩
        rw [(epsilon_accepts _ v).mp hv, List.append_nil] at hsplit
        exact hsplit ▸ hu
      · intro hA
        exact ⟨s, [], by simp, hA, (epsilon_accepts _ []).mpr rfl⟩
  · intro M hM
    unfold FSM.add at hM
    split_ifs at hM with hne
    rcases hc : crawl (sortedElems (epsilon A.alphabet).alphabet)
        (addInit (epsilon A.alphabet) A) (addFinal (epsilon A.alphabet) A)
        (addNext (epsilon A.alphabet) A) fuel with _ | M0
    · rw [hc] at hM; cases hM
    · rw [hc] at hM
      cases hM
      obtain ⟨halph, hval, hlang⟩ :=
        crawl_spec _ _ _ _ _ _ (sortedElems_nodup _) hc
      have hs2 : InAlpha (sortedElems (epsilon A.alphabet).alphabet).toFinset
          s := by
        rw [sortedElems_toFinset]; exact hs
      rw [hlang s hs2]
      apply bool_eq_of_iff
      rw [add_lang]
      constructor
      · rintro ⟨u, v, hsplit, hu, hv⟩
        rw [(epsilon_accepts _ u).mp hu, List.nil_append] at hsplit
        exact hsplit ▸ hv
      · intro hA
        exact ⟨[], s, by simp, (epsilon_accepts _ []).mpr rfl, hA⟩

/-- Witness for C3 at `A = epsilon {0}` and the empty sequence. -/
theorem concat_epsilon_identity_witness :
    ((FSM.add (epsilon ({0} : Finset ℕ))
        (epsilon (epsilon ({0} : Finset ℕ)).alphabet) 8).toOption.getD
      (epsilon {0})).accepts [] = (epsilon ({0} : Finset ℕ)).accepts [] ∧
    ((FSM.add (epsilon (epsilon ({0} : Finset ℕ)).alphabet)
        (epsilon ({0} : Finset ℕ)) 8).toOption.getD
      (epsilon {0})).accepts [] = (epsilon ({0} : Finset ℕ)).accepts [] :=
  ⟨(concat_epsilon_identity (epsilon {0}) 8 []
      (by intro x hx; cases hx)).1 _ (by rfl),
    (concat_epsilon_identity (epsilon {0}) 8 []
      (by intro x hx; cases hx)).2 _ (by rfl)⟩

/-- Kleene closure of a sequence predicate: the sequence splits into
consecutive parts, each satisfying `P`. -/
def StarL {α : Type} (P : List α → Prop) (w : List α) : Prop :=
  ∃ parts : List (List α), w = parts.flatten ∧ ∀ p ∈ parts, P p

theorem StarL_nil {α : Type} (P : List α → Prop) : StarL P [] :=
  ⟨[], rfl, by intro p hp; cases hp⟩

theorem StarL_append_block {α : Type} (P : List α → Prop) (u p : List α)
    (hu : StarL P u) (hp : P p) : StarL P (u ++ p) := by
  obtain ⟨parts, hjoin, hall⟩ := hu
  refine ⟨parts ++ [p], ?_, ?_⟩
  · rw [List.flatten_append, ← hjoin]
    simp
  · intro q hq
    rcases List.mem_append.mp hq with hq | hq
    · exact hall q hq
    · rw [List.mem_singleton.mp hq]
      exact hp

theorem StarL_last {α : Type} (P : List α → Prop) :
    ∀ parts : List (List α), parts.flatten ≠ [] → (∀ p ∈ parts, P p) →
      ∃ u p, parts.flatten = u ++ p ∧ p ≠ [] ∧ StarL P u ∧ P p := by
  intro parts
  induction parts using List.reverseRecOn with
  | nil => intro h _; simp at h
  | append_singleton ps q ih =>
      intro hne hall
      have hjoin : (ps ++ [q]).flatten = ps.flatten ++ q := by simp
      by_cases hq : q = []
      · subst hq
        rw [hjoin, List.append_nil] at hne ⊢
        exact ih hne (fun p hp => hall p (List.mem_append_left _ hp))
      · refine ⟨ps.flatten, q, hjoin, hq, ⟨ps, rfl,
          fun p hp => hall p (List.mem_append_left _ hp)⟩,
          hall q (List.mem_append_right _ (List.mem_singleton_self _))⟩

theorem StarL_join {α : Type} (P : List α → Prop) :
    ∀ parts : List (List α), (∀ p ∈ parts, StarL P p) →
      StarL P parts.flatten := by
  intro parts
  induction parts with
  | nil => intro _; exact StarL_nil P
  | cons p ps ih =>
      intro hall
      obtain ⟨qs, hq, hqall⟩ := hall p (List.mem_cons_self _ _)
      obtain ⟨rs, hr, hrall⟩ := ih (fun x hx => hall x (List.mem_cons_of_mem _ hx))
      refine ⟨qs ++ rs, ?_, ?_⟩
      · rw [List.flatten_cons, hq, hr, List.flatten_append]
      · intro x hx
        rcases List.mem_append.mp hx with hx | hx
        · exact hqall x hx
        · exact hrall x hx

theorem StarL_idem {α : Type} (P : List α → Prop) (w : List α) :
    StarL (StarL P) w ↔ StarL P w := by
  constructor
  · rintro ⟨parts, hjoin, hall⟩
    rw [hjoin]
    exact StarL_join P parts hall
  · intro h
    exact ⟨[w], by simp, by
      intro p hp
      rw [List.mem_singleton.mp hp]
      exact h⟩

theorem StarL_congr {α : Type} (P Q : List α → Prop) (al : Finset α)
    (hPQ : ∀ p, InAlpha al p → (P p ↔ Q p)) (w : List α)
    (hw : InAlpha al w) : StarL P w ↔ StarL Q w := by
  have hmain : ∀ parts : List (List α), w = parts.flatten →
      ∀ p ∈ parts, InAlpha al p := by
    intro parts hjoin p hp x hx
    exact hw x (hjoin ▸ List.mem_flatten.mpr ⟨p, hp, hx⟩)
  constructor
  · rintro ⟨parts, hjoin, hall⟩
    exact ⟨parts, hjoin, fun p hp =>
      (hPQ p (hmain parts hjoin p hp)).mp (hall p hp)⟩
  · rintro ⟨parts, hjoin, hall⟩
    exact ⟨parts, hjoin, fun p hp =>
      (hPQ p (hmain parts hjoin p hp)).mpr (hall p hp)⟩

/-- The reachable superstate of the star construction after reading `w`: a
plain state records a split "complete accepted blocks, then a nonempty
partial block run"; the omega marker is present exactly when `w` is a
concatenation of accepted blocks. -/
theorem star_reached {α σ : Type} [DecidableEq σ] (A : FSM α σ) :
    ∀ (w : List α),
      (∀ s : σ, some s ∈ w.foldl (starNext A) ({none} : Finset (Option σ)) ↔
        ∃ u v, w = u ++ v ∧ v ≠ [] ∧
          StarL (fun p => A.accepts p = true) u ∧
          s = v.foldl A.map A.initial) ∧
      (none ∈ w.foldl (starNext A) ({none} : Finset (Option σ)) ↔
        StarL (fun p => A.accepts p = true) w) := by
  intro w
  induction w using List.reverseRecOn with
  | nil =>
      constructor
      · intro s
        constructor
        · intro h; simp at h
        · rintro ⟨u, v, hsplit, hne, _, _⟩
          obtain ⟨_, hv⟩ := List.append_eq_nil.mp hsplit.symm
          exact absurd hv hne
      · constructor
        · intro _; exact StarL_nil _
        · intro _; simp
  | append_singleton w a ih =>
      obtain ⟨ihs, ihn⟩ := ih
      have hstep : (w ++ [a]).foldl (starNext A) {none} =
          starNext A (w.foldl (starNext A) {none}) a := by
        rw [List.foldl_append]; rfl
      constructor
      · intro s
        rw [hstep]
        unfold starNext
        rw [Finset.mem_biUnion]
        constructor
        · rintro ⟨x, hx, hmem⟩
          rcases x with _ | s2
          · have hmem2 : some s ∈ (if A.map A.initial a ∈ A.finals then
                ({some (A.map A.initial a), none} : Finset (Option σ))
                else {some (A.map A.initial a)}) := hmem
            have hsa : s = A.map A.initial a := by
              split_ifs at hmem2 with hf
              · simp only [Finset.mem_insert, Finset.mem_singleton] at hmem2
                rcases hmem2 with h2 | h2
                · exact Option.some.inj h2
                · cases h2
              · simp only [Finset.mem_singleton] at hmem2
                exact Option.some.inj hmem2
            exact ⟨w, [a], rfl, by simp, ihn.mp hx, by rw [hsa]; rfl⟩
          · have hmem2 : some s ∈ (if A.map s2 a ∈ A.finals then
                ({some (A.map s2 a), none} : Finset (Option σ))
                else {some (A.map s2 a)}) := hmem
            have hsa : s = A.map s2 a := by
              split_ifs at hmem2 with hf
              · simp only [Finset.mem_insert, Finset.mem_singleton] at hmem2
                rcases hmem2 with h2 | h2
                · exact Option.some.inj h2
                · cases h2
              · simp only [Finset.mem_singleton] at hmem2
                exact Option.some.inj hmem2
            obtain ⟨u, v, hsplit, hvne, hstar, hrun⟩ := (ihs s2).mp hx
            refine ⟨u, v ++ [a], by rw [hsplit, List.append_assoc],
              by simp, hstar, ?_⟩
            rw [List.foldl_append, ← hrun, hsa]
            rfl
        · rintro ⟨u, v, hsplit, hvne, hstar, hrun⟩
          rcases List.eq_nil_or_concat v with hv | ⟨v2, b, hv⟩
          · exact absurd hv hvne
          · rw [List.concat_eq_append] at hv
            subst hv
            obtain ⟨hw, hb⟩ : u ++ v2 = w ∧ [b] = [a] :=
              List.append_inj' (by rw [List.append_assoc]; exact hsplit.symm)
                rfl
            have hba : b = a := by injection hb
            rw [hba] at hrun
            have hrun2 : s = A.map (v2.foldl A.map A.initial) a := by
              rw [hrun, List.foldl_append]
              rfl
            by_cases hv2 : v2 = []
            · subst hv2
              refine ⟨none, ?_, ?_⟩
              · exact ihn.mpr (by rw [← hw, List.append_nil]; exact hstar)
              · show some s ∈ (if A.map A.initial a ∈ A.finals then
                  ({some (A.map A.initial a), none} : Finset (Option σ))
                  else {some (A.map A.initial a)})
                have : s = A.map A.initial a := hrun2
                rw [this]
                split_ifs <;> simp
            · refine ⟨some (v2.foldl A.map A.initial),
                (ihs _).mpr ⟨u, v2, hw.symm, hv2, hstar, rfl⟩, ?_⟩
              show some s ∈ (if A.map (v2.foldl A.map A.initial) a ∈ A.finals
                then ({some (A.map (v2.foldl A.map A.initial) a), none} :
                  Finset (Option σ))
                else {some (A.map (v2.foldl A.map A.initial) a)})
              rw [hrun2]
              split_ifs <;> simp
      · rw [hstep]
        unfold starNext
        rw [Finset.mem_biUnion]
        constructor
        · rintro ⟨x, hx, hmem⟩
          rcases x with _ | s2
          · have hmem2 : (none : Option σ) ∈ (if A.map A.initial a ∈ A.finals
                then ({some (A.map A.initial a), none} : Finset (Option σ))
                else {some (A.map A.initial a)}) := hmem
            split_ifs at hmem2 with hf
            · have hacc : A.accepts [a] = true := by
                unfold FSM.accepts
                exact decide_eq_true hf
              exact StarL_append_block _ w [a] (ihn.mp hx) hacc
            · simp at hmem2
          · have hmem2 : (none : Option σ) ∈ (if A.map s2 a ∈ A.finals
                then ({some (A.map s2 a), none} : Finset (Option σ))
                else {some (A.map s2 a)}) := hmem
            split_ifs at hmem2 with hf
            · obtain ⟨u, v, hsplit, hvne, hstar, hrun⟩ := (ihs s2).mp hx
              have hacc : A.accepts (v ++ [a]) = true := by
                unfold FSM.accepts
                rw [List.foldl_append, ← hrun]
                exact decide_eq_true hf
              rw [hsplit, List.append_assoc]
              exact StarL_append_block _ u (v ++ [a]) hstar hacc
            · simp at hmem2
        · intro hstar
          obtain ⟨parts, hjoinp, hall⟩ := hstar
          obtain ⟨u, p, hjoin2, hpne, hustar, hp⟩ :=
            StarL_last _ parts (by rw [← hjoinp]; simp) hall
          have hjoin : w ++ [a] = u ++ p := hjoinp.trans hjoin2
          rcases List.eq_nil_or_concat p with hpn | ⟨p2, b, hpc⟩
          · exact absurd hpn hpne
          · rw [List.concat_eq_append] at hpc
            subst hpc
            obtain ⟨hw, hb⟩ : u ++ p2 = w ∧ [b] = [a] :=
              List.append_inj' (by rw [List.append_assoc]; exact hjoin.symm)
                rfl
            have hba : b = a := by injection hb
            rw [hba] at hp
            by_cases hp2 : p2 = []
            · subst hp2
              have hmem0 : none ∈ w.foldl (starNext A) {none} := by
                apply ihn.mpr
                rw [← hw, List.append_nil]
                exact hustar
              refine ⟨none, hmem0, ?_⟩
              show (none : Option σ) ∈ (if A.map A.initial a ∈ A.finals then
                ({some (A.map A.initial a), none} : Finset (Option σ))
                else {some (A.map A.initial a)})
              have hf : A.map A.initial a ∈ A.finals := by
                unfold FSM.accepts at hp
                exact of_decide_eq_true hp
              rw [if_pos hf]
              simp
            · refine ⟨some (p2.foldl A.map A.initial),
                (ihs _).mpr ⟨u, p2, hw.symm, hp2, hustar, rfl⟩, ?_⟩
              show (none : Option σ) ∈
                (if A.map (p2.foldl A.map A.initial) a ∈ A.finals then
                  ({some (A.map (p2.foldl A.map A.initial) a), none} :
                    Finset (Option σ))
                else {some (A.map (p2.foldl A.map A.initial) a)})
              have hf : A.map (p2.foldl A.map A.initial) a ∈ A.finals := by
                unfold FSM.accepts at hp
                rw [List.foldl_append] at hp
                exact of_decide_eq_true hp
              rw [if_pos hf]
              simp

/-- Language of `fsm.star`: a successful crawl accepts exactly the
concatenations of accepted blocks of the operand. -/
theorem star_lang {α σ : Type} [LinearOrder α] [DecidableEq σ] (A : FSM α σ)
    (fuel : ℕ) (M : FSM α ℕ) (h : FSM.star A fuel = some M) :
    M.alphabet = A.alphabet ∧ M.Valid ∧
    ∀ w, InAlpha A.alphabet w →
      (M.accepts w = true ↔ StarL (fun p => A.accepts p = true) w) := by
  unfold FSM.star at h
  obtain ⟨halph, hval, hlang⟩ := crawl_spec _ _ _ _ _ _ (sortedElems_nodup _) h
  rw [sortedElems_toFinset] at halph hlang
  refine ⟨halph, hval, ?_⟩
  intro w hw
  rw [hlang w hw]
  unfold starFinal
  rw [decide_eq_true_eq]
  exact (star_reached A w).2

/-- C4: star is idempotent up to accepted language — starring an already
starred automaton accepts exactly the sequences the starred automaton
accepts. -/
theorem star_idempotent {α σ : Type} [LinearOrder α] [DecidableEq σ]
    (A : FSM α σ) (f₁ f₂ : ℕ) (s : List α) (hs : InAlpha A.alphabet s) :
    ∀ M₁ M₂, FSM.star A f₁ = some M₁ → FSM.star M₁ f₂ = some M₂ →
      M₂.accepts s = M₁.accepts s := by
  intro M₁ M₂ h₁ h₂
  obtain ⟨halph₁, hval₁, hlang₁⟩ := star_lang A f₁ M₁ h₁
  obtain ⟨halph₂, hval₂, hlang₂⟩ := star_lang M₁ f₂ M₂ h₂
  have hsM : InAlpha M₁.alphabet s := by rw [halph₁]; exact hs
  apply bool_eq_of_iff
  rw [hlang₂ s hsM]
  have hcongr : StarL (fun p => M₁.accepts p = true) s ↔
      StarL (StarL (fun p => A.accepts p = true)) s := by
    apply StarL_congr _ _ A.alphabet _ s hs
    intro p hp
    exact hlang₁ p hp
  rw [hcongr, StarL_idem]
  exact (hlang₁ s hs).symm

/-- Witness for C4 at `A = epsilon {0}` and the empty sequence. -/
theorem star_idempotent_witness :
    ((FSM.star ((FSM.star (epsilon ({0} : Finset ℕ)) 8).getD (epsilon {0}))
        8).getD (epsilon {0})).accepts [] =
      ((FSM.star (epsilon ({0} : Finset ℕ)) 8).getD (epsilon {0})).accepts [] :=
  star_idempotent (epsilon {0}) 8 8 [] (by intro x hx; cases hx) _ _
    (by rfl) (by rfl)

/-- Modelled from the spec: the symbolic-expression algebra of the external
`lego` module, which is not part of this repository's sources.  The
constructors cover exactly the capabilities the spec's §4.5/§6 require of it:
the empty-language constant (`nothing`), the empty-string constant, a
character class and its complement ("any symbol not in the listed set", the
wildcard case), alternation, concatenation, and Kleene closure. -/
inductive Lego (α : Type) where
  | nothing : Lego α
  | emptystring : Lego α
  | charcls : Finset α → Bool → Lego α
  | alt : Lego α → Lego α → Lego α
  | concat : Lego α → Lego α → Lego α
  | star : Lego α → Lego α
deriving DecidableEq

/-- Modelled from the spec: derivability of a literal symbol sequence from an
expression.  A class (negated or not) derives exactly the one-symbol
sequences it admits; alternation, concatenation and closure combine
derivations in the standard way; `nothing` derives nothing. -/
inductive Lego.Matches {α : Type} : Lego α → List α → Prop where
  | emptystring : Lego.Matches .emptystring []
  | charclsPos (s : Finset α) (a : α) : a ∈ s →
      Lego.Matches (.charcls s false) [a]
  | charclsNeg (s : Finset α) (a : α) : a ∉ s →
      Lego.Matches (.charcls s true) [a]
  | altLeft (e₁ e₂ : Lego α) (w : List α) : Lego.Matches e₁ w →
      Lego.Matches (.alt e₁ e₂) w
  | altRight (e₁ e₂ : Lego α) (w : List α) : Lego.Matches e₂ w →
      Lego.Matches (.alt e₁ e₂) w
  | concat (e₁ e₂ : Lego α) (u v : List α) : Lego.Matches e₁ u →
      Lego.Matches e₂ v → Lego.Matches (.concat e₁ e₂) (u ++ v)
  | starNil (e : Lego α) : Lego.Matches (.star e) []
  | starCons (e : Lego α) (u v : List α) : Lego.Matches e u →
      Lego.Matches (.star e) v → Lego.Matches (.star e) (u ++ v)

/-- An equation of the extraction algorithm: `right` is the state-set the
equation describes, `lefts` maps each left state-set (`none` standing for the
synthetic "outside" marker) to the expression of the routes leading from that
left into `right`.  A Python dict in insertion order becomes an association
list with unique keys. -/
structure Equation (α σ : Type) where
  right : Finset σ
  lefts : List (Option (Finset σ) × Lego α)

/-- `equation.__addTransition`: merge into an existing entry by the
expression algebra's alternation, or append a new entry. -/
def addTransition {α σ : Type} [DecidableEq α] [DecidableEq σ]
    (lefts : List (Option (Finset σ) × Lego α)) (k : Option (Finset σ))
    (e : Lego α) : List (Option (Finset σ) × Lego α) :=
  if (findKey lefts k).isSome then
    lefts.map fun p => if p.1 = k then (p.1, .alt p.2 e) else p
  else lefts ++ [(k, e)]

/-- `equation.__init__`: for each symbol, in sorted order, the set of states
with a one-symbol transition into `right` under that symbol becomes a left
entry carrying the symbol's class — the wildcard token `oc` (`otherchars`)
contributing the complement of the remaining alphabet symbols — and, when
`right` contains the initial state, the outside marker contributes the empty
string. -/
def mkEquation {α σ : Type} [LinearOrder α] [DecidableEq σ] (pres : List α)
    (A : FSM α σ) (oc : α) (right : Finset σ) : Equation α σ :=
  let base := (sortSyms pres).foldl
    (fun lefts b =>
      let left := A.states.filter (fun p => A.map p b ∈ right)
      if b = oc then
        addTransition lefts (some left) (.charcls (A.alphabet.erase oc) true)
      else addTransition lefts (some left) (.charcls {b} false))
    []
  { right := right,
    lefts := if A.initial ∈ right then addTransition base none .emptystring
      else base }

/-- `equation.applyLoops`: fold the self-referential entry into a Kleene
closure concatenated onto every remaining entry, and drop it. -/
def applyLoops {α σ : Type} [DecidableEq α] [DecidableEq σ]
    (eqn : Equation α σ) : Equation α σ :=
  match findKey eqn.lefts (some eqn.right) with
  | none => eqn
  | some loopE =>
      { right := eqn.right,
        lefts := (eqn.lefts.filter
            (fun p => decide (p.1 ≠ some eqn.right))).map
          (fun p => (p.1, .concat p.2 (.star loopE))) }

/-- `equation.eliminate`: substitute `other` into this equation, replacing
the route through `other.right` by the composition of each of `other`'s own
entries with that route, then deleting the `other.right` entry.  The source
raises on a self-transition inside `other`; `pattern` only ever eliminates an
equation to which `applyLoops` has been applied, so that branch is
unreachable and the embedding carries no check. -/
def eliminate {α σ : Type} [DecidableEq α] [DecidableEq σ]
    (eqSelf other : Equation α σ) : Equation α σ :=
  match findKey eqSelf.lefts (some other.right) with
  | none => eqSelf
  | some route =>
      { right := eqSelf.right,
        lefts := (other.lefts.foldl
            (fun lefts p => addTransition lefts p.1 (.concat p.2 route))
            eqSelf.lefts).filter
          (fun p => decide (p.1 ≠ some other.right)) }

/-- The equation-discovery worklist of `fsm.pattern`: scan each equation's
left keys in recorded order, appending a fresh equation for every state-set
not yet present, until the list stabilizes (one fuel unit per processed
equation). -/
def discover {α σ : Type} [LinearOrder α] [DecidableEq σ] (pres : List α)
    (A : FSM α σ) (oc : α) :
    ℕ → List (Equation α σ) → ℕ → Option (List (Equation α σ))
  | 0, eqs, i => if i < eqs.length then none else some eqs
  | fuel + 1, eqs, i =>
      if h : i < eqs.length then
        let eqs2 := (eqs.get ⟨i, h⟩).lefts.foldl
          (fun acc p =>
            match p.1 with
            | none => acc
            | some r =>
                if r ∈ acc.map Equation.right then acc
                else acc ++ [mkEquation pres A oc r])
          eqs
        discover pres A oc fuel eqs2 (i + 1)
      else some eqs

/-- The backward-substitution pass of `fsm.pattern`, acting on the reversed
equation list (most recently discovered equation first): apply loops to the
current equation, substitute it into every earlier equation, recurse.  The
first argument is a structural bound instantiated with the list length. -/
def elimRevN {α σ : Type} [DecidableEq α] [DecidableEq σ] :
    ℕ → List (Equation α σ) → List (Equation α σ)
  | 0, l => l
  | _ + 1, [] => []
  | n + 1, x :: rest =>
      let x2 := applyLoops x
      x2 :: elimRevN n (rest.map (fun e => eliminate e x2))

/-- `fsm.pattern` with the alphabet given as a presentation list: discover
the equations starting from the final-state set, eliminate backwards, and
read the answer off the outside entry of the first equation — absent entry
meaning the empty language. -/
def patternAux {α σ : Type} [LinearOrder α] [DecidableEq σ] (pres : List α)
    (A : FSM α σ) (oc : α) (fuel : ℕ) : Option (Lego α) :=
  (discover pres A oc fuel [mkEquation pres A oc A.finals] 0).map fun eqs =>
    match (elimRevN eqs.length eqs.reverse).getLast? with
    | some eq0 => (findKey eq0.lefts none).getD .nothing
    | none => .nothing

/-- `fsm.pattern`: the alphabet set is presented in sorted order (Python
iterates the set and sorts; the result depends only on the set). -/
def pattern {α σ : Type} [LinearOrder α] [DecidableEq σ] (A : FSM α σ)
    (oc : α) (fuel : ℕ) : Option (Lego α) :=
  patternAux (sortedElems A.alphabet) A oc fuel

theorem mkEquation_congr {α σ : Type} [LinearOrder α] [DecidableEq σ]
    {p₁ p₂ : List α} (h : sortSyms p₁ = sortSyms p₂) (A : FSM α σ) (oc : α)
    (right : Finset σ) : mkEquation p₁ A oc right = mkEquation p₂ A oc right := by
  unfold mkEquation
  rw [h]

theorem discover_congr {α σ : Type} [LinearOrder α] [DecidableEq σ]
    {p₁ p₂ : List α} (h : sortSyms p₁ = sortSyms p₂) (A : FSM α σ) (oc : α) :
    ∀ fuel eqs i, discover p₁ A oc fuel eqs i = discover p₂ A oc fuel eqs i := by
  intro fuel
  induction fuel with
  | zero => intro eqs i; rfl
  | succ n ih =>
      intro eqs i
      unfold discover
      split_ifs with hi
      · have harg : (fun (acc : List (Equation α σ))
            (p : Option (Finset σ) × Lego α) =>
              match p.1 with
              | none => acc
              | some r =>
                  if r ∈ acc.map Equation.right then acc
                  else acc ++ [mkEquation p₁ A oc r]) =
            (fun acc p =>
              match p.1 with
              | none => acc
              | some r =>
                  if r ∈ acc.map Equation.right then acc
                  else acc ++ [mkEquation p₂ A oc r]) := by
          funext acc p
          rcases p with ⟨k, e⟩
          rcases k with _ | r
          · rfl
          · show (if r ∈ acc.map Equation.right then acc
              else acc ++ [mkEquation p₁ A oc r]) = _
            rw [mkEquation_congr h]
        rw [harg, ih]
      · rfl

/-- C9: determinism through the fixed symbol iteration order — both the
crawl construction procedure and the extraction's equation pipeline compute
identical output from any two presentations of the same alphabet set,
because both iterate symbols in one fixed sorted order (and the automaton
stores the alphabet as a set). -/
theorem iteration_order_determinism {α S σ : Type} [LinearOrder α]
    [DecidableEq S] [DecidableEq σ] (p₁ p₂ : List α) (hperm : p₁.Perm p₂)
    (init : S) (isFinal : S → Bool) (getNext : S → α → S) (A : FSM α σ)
    (oc : α) (fuel : ℕ) :
    crawl p₁ init isFinal getNext fuel = crawl p₂ init isFinal getNext fuel ∧
    patternAux p₁ A oc fuel = patternAux p₂ A oc fuel := by
  have hsort := sortSyms_eq_of_perm hperm
  have htf : p₁.toFinset = p₂.toFinset := by
    apply Finset.ext
    intro a
    rw [List.mem_toFinset, List.mem_toFinset, hperm.mem_iff]
  constructor
  · unfold crawl
    rw [hsort]
    have hfn : (fun (out : List S × Finset ℕ × List (List (α × ℕ))) =>
        (crawlRaw p₁ out).automerge) =
        fun out => (crawlRaw p₂ out).automerge := by
      funext out
      unfold crawlRaw
      rw [htf]
    rw [hfn]
  · unfold patternAux
    rw [discover_congr hsort, mkEquation_congr hsort]

/-- Witness for C9 at the two presentations `[0, 1]` and `[1, 0]` of the
alphabet `{0, 1}`. -/
theorem iteration_order_determinism_witness :
    crawl [0, 1] (0 : ℕ) (fun _ => true) (fun s _ => s) 4 =
      crawl [1, 0] (0 : ℕ) (fun _ => true) (fun s _ => s) 4 ∧
    patternAux [0, 1] (epsilon {0, 1}) 1 4 =
      patternAux [1, 0] (epsilon {0, 1}) 1 4 :=
  iteration_order_determinism [0, 1] [1, 0] (by decide) 0 (fun _ => true)
    (fun s _ => s) (epsilon {0, 1}) 1 4

theorem matches_nothing_iff {α : Type} (w : List α) :
    (Lego.nothing : Lego α).Matches w ↔ False := by
  constructor
  · intro h; cases h
  · intro h; cases h

theorem matches_emptystring_iff {α : Type} (w : List α) :
    (Lego.emptystring : Lego α).Matches w ↔ w = [] := by
  constructor
  · intro h; cases h; rfl
  · intro h; subst h; exact .emptystring

theorem matches_charcls_pos_iff {α : Type} (s : Finset α) (w : List α) :
    (Lego.charcls s false).Matches w ↔ ∃ a, w = [a] ∧ a ∈ s := by
  constructor
  · intro h
    cases h with
    | charclsPos _ a ha => exact ⟨a, rfl, ha⟩
  · rintro ⟨a, hw, ha⟩
    subst hw
    exact .charclsPos s a ha

theorem matches_charcls_neg_iff {α : Type} (s : Finset α) (w : List α) :
    (Lego.charcls s true).Matches w ↔ ∃ a, w = [a] ∧ a ∉ s := by
  constructor
  · intro h
    cases h with
    | charclsNeg _ a ha => exact ⟨a, rfl, ha⟩
  · rintro ⟨a, hw, ha⟩
    subst hw
    exact .charclsNeg s a ha

theorem matches_alt_iff {α : Type} (e₁ e₂ : Lego α) (w : List α) :
    (Lego.alt e₁ e₂).Matches w ↔ e₁.Matches w ∨ e₂.Matches w := by
  constructor
  · intro h
    cases h with
    | altLeft _ _ _ h => exact Or.inl h
    | altRight _ _ _ h => exact Or.inr h
  · rintro (h | h)
    · exact .altLeft _ _ _ h
    · exact .altRight _ _ _ h

theorem matches_concat_iff {α : Type} (e₁ e₂ : Lego α) (w : List α) :
    (Lego.concat e₁ e₂).Matches w ↔
      ∃ u v, w = u ++ v ∧ e₁.Matches u ∧ e₂.Matches v := by
  constructor
  · intro h
    cases h with
    | concat _ _ u v h1 h2 => exact ⟨u, v, rfl, h1, h2⟩
  · rintro ⟨u, v, hw, h1, h2⟩
    subst hw
    exact .concat _ _ _ _ h1 h2

theorem StarL_cons_block {α : Type} (P : List α → Prop) (p v : List α)
    (hp : P p) (hv : StarL P v) : StarL P (p ++ v) := by
  obtain ⟨parts, hjoin, hall⟩ := hv
  refine ⟨p :: parts, by rw [List.flatten_cons, ← hjoin], ?_⟩
  intro q hq
  rcases List.mem_cons.mp hq with hq | hq
  · rw [hq]; exact hp
  · exact hall q hq

theorem matches_star_iff {α : Type} (e : Lego α) (w : List α) :
    (Lego.star e).Matches w ↔ StarL (fun v => e.Matches v) w := by
  constructor
  · intro h
    have hgen : ∀ (g : Lego α) (v : List α), g.Matches v →
        ∀ e2, g = Lego.star e2 → StarL (fun x => e2.Matches x) v := by
      intro g v hg
      induction hg with
      | emptystring => intro e2 he; exact absurd he (by simp)
      | charclsPos s a _ => intro e2 he; exact absurd he (by simp)
      | charclsNeg s a _ => intro e2 he; exact absurd he (by simp)
      | altLeft _ _ _ _ => intro e2 he; exact absurd he (by simp)
      | altRight _ _ _ _ => intro e2 he; exact absurd he (by simp)
      | concat _ _ _ _ _ _ => intro e2 he; exact absurd he (by simp)
      | starNil _ => intro e2 _; exact StarL_nil _
      | starCons e3 u v h1 _ _ ih2 =>
          intro e2 he
          have he2 : e3 = e2 := by injection he
          subst he2
          exact StarL_cons_block _ u v h1 (ih2 e3 rfl)
    exact hgen _ w h e rfl
  · rintro ⟨parts, hjoin, hall⟩
    subst hjoin
    induction parts with
    | nil => exact .starNil e
    | cons p ps ih =>
        rw [List.flatten_cons]
        exact .starCons e p ps.flatten (hall p (List.mem_cons_self _ _))
          (ih (fun q hq => hall q (List.mem_cons_of_mem _ hq)))

/-- Strings whose run from the initial state ends inside the state-set. -/
def Reaches {α σ : Type} [DecidableEq σ] (A : FSM α σ) (w : List α)
    (R : Finset σ) : Prop :=
  w.foldl A.map A.initial ∈ R

/-- Language of a left key: the outside marker derives only the empty
string, a state-set key derives the strings reaching it. -/
def KeyLang {α σ : Type} [DecidableEq σ] (A : FSM α σ) :
    Option (Finset σ) → List α → Prop
  | none, w => w = []
  | some R, w => Reaches A w R

/-- Contribution of one equation entry. -/
def Contrib {α σ : Type} [DecidableEq σ] (A : FSM α σ)
    (p : Option (Finset σ) × Lego α) (w : List α) : Prop :=
  ∃ u v, w = u ++ v ∧ KeyLang A p.1 u ∧ p.2.Matches v

/-- Strings described by the entries whose key satisfies `keep`. -/
def EqnLangP {α σ : Type} [DecidableEq σ] (A : FSM α σ)
    (lefts : List (Option (Finset σ) × Lego α))
    (keep : Option (Finset σ) → Prop) (w : List α) : Prop :=
  ∃ p ∈ lefts, keep p.1 ∧ Contrib A p w

/-- Strings described by all entries. -/
def EqnLang {α σ : Type} [DecidableEq σ] (A : FSM α σ)
    (lefts : List (Option (Finset σ) × Lego α)) (w : List α) : Prop :=
  EqnLangP A lefts (fun _ => True) w

/-- The semantic invariant of the extraction algorithm: at every stage, each
equation describes exactly the alphabet-sequences reaching its right-hand
side. -/
def SemInv {α σ : Type} [DecidableEq σ] (A : FSM α σ) (eqn : Equation α σ) :
    Prop :=
  ∀ w, InAlpha A.alphabet w →
    (Reaches A w eqn.right ↔ EqnLang A eqn.lefts w)

/-- No entry keyed by a state-set derives the empty string (self-loop
expressions always consume at least one symbol — the side condition of
Arden's lemma). -/
def EpsFree {α σ : Type} (eqn : Equation α σ) : Prop :=
  ∀ p ∈ eqn.lefts, p.1 ≠ none → ¬ p.2.Matches []

/-- Association-list keys are unique, as in a Python dict. -/
def KeysNodup {α σ : Type} (eqn : Equation α σ) : Prop :=
  (eqn.lefts.map Prod.fst).Nodup

theorem findKey_none_iff {κ ν : Type} [DecidableEq κ]
    (l : List (κ × ν)) (k : κ) :
    findKey l k = none ↔ ∀ p ∈ l, p.1 ≠ k := by
  unfold findKey
  rw [Option.map_eq_none', List.find?_eq_none]
  constructor
  · intro h p hp
    have := h p hp
    simpa using this
  · intro h p hp
    simpa using h p hp

theorem findKey_some_mem {κ ν : Type} [DecidableEq κ]
    (l : List (κ × ν)) (k : κ) (v : ν) (h : findKey l k = some v) :
    (k, v) ∈ l := by
  unfold findKey at h
  rw [Option.map_eq_some'] at h
  obtain ⟨p, hp, hv⟩ := h
  have hmem := List.mem_of_find?_eq_some hp
  have hpred := List.find?_some hp
  have hk : p.1 = k := by simpa using hpred
  have : p = (k, v) := by
    rcases p with ⟨pk, pv⟩
    simp only at hk hv
    rw [hk, hv]
  exact this ▸ hmem

theorem findKey_unique {κ ν : Type} [DecidableEq κ]
    (l : List (κ × ν)) (k : κ) (v : ν) (hnd : (l.map Prod.fst).Nodup)
    (h : findKey l k = some v) :
    ∀ p ∈ l, p.1 = k → p = (k, v) := by
  intro p hp hpk
  have hkv := findKey_some_mem l k v h
  have hinj := List.inj_on_of_nodup_map hnd
  exact hinj hp hkv (by rw [hpk])

theorem findKey_isSome_iff {κ ν : Type} [DecidableEq κ]
    (l : List (κ × ν)) (k : κ) :
    (findKey l k).isSome = true ↔ ∃ p ∈ l, p.1 = k := by
  rcases h : findKey l k with _ | v
  · simp only [Option.isSome_none, Bool.false_eq_true, false_iff]
    rw [findKey_none_iff] at h
    push_neg
    exact h
  · simp only [Option.isSome_some, true_iff]
    exact ⟨(k, v), findKey_some_mem l k v h, rfl⟩

theorem addTransition_keys_subset {α σ : Type} [DecidableEq α] [DecidableEq σ]
    (lefts : List (Option (Finset σ) × Lego α)) (k : Option (Finset σ))
    (e : Lego α) :
    ∀ p ∈ addTransition lefts k e, p.1 ∈ lefts.map Prod.fst ∨ p.1 = k := by
  intro p hp
  unfold addTransition at hp
  split_ifs at hp with h
  · rcases List.mem_map.mp hp with ⟨q, hq, hpq⟩
    split_ifs at hpq with hqk
    · left
      have hq1 : p.1 = q.1 := by rw [← hpq]
      rw [hq1]
      exact List.mem_map.mpr ⟨q, hq, rfl⟩
    · left
      rw [← hpq]
      exact List.mem_map.mpr ⟨q, hq, rfl⟩
  · rcases List.mem_append.mp hp with hp | hp
    · exact Or.inl (List.mem_map.mpr ⟨p, hp, rfl⟩)
    · right
      rw [List.mem_singleton.mp hp]

theorem addTransition_keysNodup {α σ : Type} [DecidableEq α] [DecidableEq σ]
    (lefts : List (Option (Finset σ) × Lego α)) (k : Option (Finset σ))
    (e : Lego α) (hnd : (lefts.map Prod.fst).Nodup) :
    ((addTransition lefts k e).map Prod.fst).Nodup := by
  unfold addTransition
  split_ifs with h
  · have heq : (lefts.map (fun p =>
        if p.1 = k then (p.1, Lego.alt p.2 e) else p)).map Prod.fst =
        lefts.map Prod.fst := by
      rw [List.map_map]
      apply List.map_congr_left
      intro q _
      show Prod.fst (if q.1 = k then (q.1, Lego.alt q.2 e) else q) = q.1
      split_ifs <;> rfl
    rw [heq]
    exact hnd
  · rw [List.map_append]
    rw [List.nodup_append]
    refine ⟨hnd, List.nodup_singleton _, ?_⟩
    intro x hx
    obtain ⟨q, hq, hqx⟩ := List.mem_map.mp hx
    intro hxk
    have hxk2 : x = k := by simpa using hxk
    apply h
    rw [findKey_isSome_iff]
    exact ⟨q, hq, by rw [hqx, hxk2]⟩

theorem addTransition_epsFree {α σ : Type} [DecidableEq α] [DecidableEq σ]
    (lefts : List (Option (Finset σ) × Lego α)) (k : Option (Finset σ))
    (e : Lego α)
    (h1 : ∀ p ∈ lefts, p.1 ≠ none → ¬ p.2.Matches [])
    (h2 : k ≠ none → ¬ e.Matches []) :
    ∀ p ∈ addTransition lefts k e, p.1 ≠ none → ¬ p.2.Matches [] := by
  intro p hp hpn
  unfold addTransition at hp
  split_ifs at hp with h
  · rcases List.mem_map.mp hp with ⟨q, hq, hpq⟩
    split_ifs at hpq with hqk
    · rw [← hpq] at hpn ⊢
      rw [matches_alt_iff]
      rintro (hm | hm)
      · exact h1 q hq hpn hm
      · exact h2 (hqk ▸ hpn) hm
    · rw [← hpq] at hpn ⊢
      exact h1 q hq hpn
  · rcases List.mem_append.mp hp with hp | hp
    · exact h1 p hp hpn
    · rw [List.mem_singleton.mp hp] at hpn ⊢
      exact h2 hpn

theorem addTransition_lang {α σ : Type} [DecidableEq α] [DecidableEq σ]
    (A : FSM α σ) (lefts : List (Option (Finset σ) × Lego α))
    (k : Option (Finset σ)) (e : Lego α) (keep : Option (Finset σ) → Prop)
    (w : List α) :
    EqnLangP A (addTransition lefts k e) keep w ↔
      EqnLangP A lefts keep w ∨
        (keep k ∧ ∃ u v, w = u ++ v ∧ KeyLang A k u ∧ e.Matches v) := by
  unfold addTransition
  split_ifs with h
  · constructor
    · rintro ⟨p, hp, hkeep, hc⟩
      rcases List.mem_map.mp hp with ⟨q, hq, hpq⟩
      split_ifs at hpq with hqk
      · rw [← hpq] at hkeep hc
        obtain ⟨u, v, hw, hku, hm⟩ := hc
        rw [matches_alt_iff] at hm
        rcases hm with hm | hm
        · exact Or.inl ⟨q, hq, hkeep, u, v, hw, hku, hm⟩
        · right
          rw [hqk] at hkeep hku
          exact ⟨hkeep, u, v, hw, hku, hm⟩
      · rw [← hpq] at hkeep hc
        exact Or.inl ⟨q, hq, hkeep, hc⟩
    · rintro (⟨p, hp, hkeep, hc⟩ | ⟨hkeep, u, v, hw, hku, hm⟩)
      · by_cases hpk : p.1 = k
        · refine ⟨(p.1, .alt p.2 e),
            List.mem_map.mpr ⟨p, hp, by rw [if_pos hpk]⟩, hkeep, ?_⟩
          obtain ⟨u, v, hw, hku, hm⟩ := hc
          exact ⟨u, v, hw, hku, (matches_alt_iff _ _ _).mpr (Or.inl hm)⟩
        · exact ⟨p, List.mem_map.mpr ⟨p, hp, by rw [if_neg hpk]⟩, hkeep, hc⟩
      · obtain ⟨v₀, hv₀⟩ := Option.isSome_iff_exists.mp h
        have hkv : (k, v₀) ∈ lefts := findKey_some_mem _ _ _ hv₀
        refine ⟨(k, .alt v₀ e),
          List.mem_map.mpr ⟨(k, v₀), hkv, by rw [if_pos rfl]⟩, hkeep, ?_⟩
        exact ⟨u, v, hw, hku, (matches_alt_iff _ _ _).mpr (Or.inr hm)⟩
  · constructor
    · rintro ⟨p, hp, hkeep, hc⟩
      rcases List.mem_append.mp hp with hp | hp
      · exact Or.inl ⟨p, hp, hkeep, hc⟩
      · rw [List.mem_singleton.mp hp] at hkeep hc
        obtain ⟨u, v, hw, hku, hm⟩ := hc
        exact Or.inr ⟨hkeep, u, v, hw, hku, hm⟩
    · rintro (⟨p, hp, hkeep, hc⟩ | ⟨hkeep, u, v, hw, hku, hm⟩)
      · exact ⟨p, List.mem_append_left _ hp, hkeep, hc⟩
      · exact ⟨(k, e),
          List.mem_append_right _ (List.mem_singleton_self _), hkeep,
          u, v, hw, hku, hm⟩

theorem eqnLang_decompose {α σ : Type} [DecidableEq α] [DecidableEq σ]
    (A : FSM α σ) (lefts : List (Option (Finset σ) × Lego α))
    (k : Option (Finset σ)) (v : Lego α)
    (hnd : (lefts.map Prod.fst).Nodup) (h : findKey lefts k = some v)
    (w : List α) :
    EqnLang A lefts w ↔
      EqnLangP A lefts (fun x => x ≠ k) w ∨ Contrib A (k, v) w := by
  constructor
  · rintro ⟨p, hp, _, hc⟩
    by_cases hpk : p.1 = k
    · right
      have hpe := findKey_unique lefts k v hnd h p hp hpk
      rw [← hpe]
      exact hc
    · exact Or.inl ⟨p, hp, hpk, hc⟩
  · rintro (⟨p, hp, _, hc⟩ | hc)
    · exact ⟨p, hp, trivial, hc⟩
    · exact ⟨(k, v), findKey_some_mem _ _ _ h, trivial, hc⟩

theorem eqnLang_filter {α σ : Type} [DecidableEq α] [DecidableEq σ]
    (A : FSM α σ) (lefts : List (Option (Finset σ) × Lego α))
    (bad : Option (Finset σ)) (w : List α) :
    EqnLang A (lefts.filter (fun p => decide (p.1 ≠ bad))) w ↔
      EqnLangP A lefts (fun x => x ≠ bad) w := by
  constructor
  · rintro ⟨p, hp, _, hc⟩
    rw [List.mem_filter] at hp
    exact ⟨p, hp.1, by simpa using hp.2, hc⟩
  · rintro ⟨p, hp, hk, hc⟩
    exact ⟨p, List.mem_filter.mpr ⟨hp, by simpa using hk⟩, trivial, hc⟩

theorem foldl_addTransition_lang {α σ β : Type} [DecidableEq α]
    [DecidableEq σ] (A : FSM α σ) (key : β → Option (Finset σ))
    (expr : β → Lego α) (keep : Option (Finset σ) → Prop) (w : List α) :
    ∀ (qs : List β) (start : List (Option (Finset σ) × Lego α)),
      EqnLangP A
          (qs.foldl (fun l b => addTransition l (key b) (expr b)) start)
          keep w ↔
        EqnLangP A start keep w ∨
          ∃ b ∈ qs, keep (key b) ∧
            ∃ u v, w = u ++ v ∧ KeyLang A (key b) u ∧ (expr b).Matches v := by
  intro qs
  induction qs with
  | nil =>
      intro start
      rw [List.foldl_nil]
      constructor
      · exact Or.inl
      · rintro (h | ⟨b, hb, _⟩)
        · exact h
        · cases hb
  | cons b bs ih =>
      intro start
      rw [List.foldl_cons, ih, addTransition_lang]
      constructor
      · rintro ((h | h) | ⟨c, hc, hyp⟩)
        · exact Or.inl h
        · exact Or.inr ⟨b, List.mem_cons_self _ _, h.1, h.2⟩
        · exact Or.inr ⟨c, List.mem_cons_of_mem _ hc, hyp⟩
      · rintro (h | ⟨c, hc, hyp⟩)
        · exact Or.inl (Or.inl h)
        · rcases List.mem_cons.mp hc with hcb | hcb
          · subst hcb
            exact Or.inl (Or.inr hyp)
          · exact Or.inr ⟨c, hcb, hyp⟩

theorem foldl_addTransition_keys {α σ β : Type} [DecidableEq α]
    [DecidableEq σ] (key : β → Option (Finset σ)) (expr : β → Lego α) :
    ∀ (qs : List β) (start : List (Option (Finset σ) × Lego α)),
      ∀ p ∈ qs.foldl (fun l b => addTransition l (key b) (expr b)) start,
        p.1 ∈ start.map Prod.fst ∨ ∃ b ∈ qs, p.1 = key b := by
  intro qs
  induction qs with
  | nil => intro start p hp; exact Or.inl (List.mem_map.mpr ⟨p, hp, rfl⟩)
  | cons b bs ih =>
      intro start p hp
      rw [List.foldl_cons] at hp
      rcases ih (addTransition start (key b) (expr b)) p hp with h | ⟨c, hc, h⟩
      · obtain ⟨q, hq, hqp⟩ := List.mem_map.mp h
        rcases addTransition_keys_subset start (key b) (expr b) q hq with
          h2 | h2
        · exact Or.inl (hqp ▸ h2)
        · exact Or.inr ⟨b, List.mem_cons_self _ _, by rw [← hqp, h2]⟩
      · exact Or.inr ⟨c, List.mem_cons_of_mem _ hc, h⟩

theorem foldl_addTransition_keysNodup {α σ β : Type} [DecidableEq α]
    [DecidableEq σ] (key : β → Option (Finset σ)) (expr : β → Lego α) :
    ∀ (qs : List β) (start : List (Option (Finset σ) × Lego α)),
      (start.map Prod.fst).Nodup →
      ((qs.foldl (fun l b => addTransition l (key b) (expr b)) start).map
        Prod.fst).Nodup := by
  intro qs
  induction qs with
  | nil => intro start h; exact h
  | cons b bs ih =>
      intro start h
      rw [List.foldl_cons]
      exact ih _ (addTransition_keysNodup _ _ _ h)

theorem foldl_addTransition_epsFree {α σ β : Type} [DecidableEq α]
    [DecidableEq σ] (key : β → Option (Finset σ)) (expr : β → Lego α)
    (hexpr : ∀ b, key b ≠ none → ¬ (expr b).Matches []) :
    ∀ (qs : List β) (start : List (Option (Finset σ) × Lego α)),
      (∀ p ∈ start, p.1 ≠ none → ¬ p.2.Matches []) →
      ∀ p ∈ qs.foldl (fun l b => addTransition l (key b) (expr b)) start,
        p.1 ≠ none → ¬ p.2.Matches [] := by
  intro qs
  induction qs with
  | nil => intro start h; exact h
  | cons b bs ih =>
      intro start h
      rw [List.foldl_cons]
      exact ih _ (addTransition_epsFree _ _ _ h (hexpr b))

theorem inAlpha_append {α : Type} (al : Finset α) (u v : List α) :
    InAlpha al (u ++ v) ↔ InAlpha al u ∧ InAlpha al v := by
  constructor
  · intro h
    exact ⟨fun x hx => h x (List.mem_append_left _ hx),
      fun x hx => h x (List.mem_append_right _ hx)⟩
  · rintro ⟨h1, h2⟩ x hx
    rcases List.mem_append.mp hx with hx | hx
    · exact h1 x hx
    · exact h2 x hx

/-- Arden's lemma over alphabet-restricted languages: a language satisfying
`X = B ∪ X·E` with an epsilon-free `E` equals `B·E*`.  This is the semantic
content of the "apply loops" step of the extraction algorithm. -/
theorem arden {α : Type} (al : Finset α) (X B : List α → Prop) (E : Lego α)
    (hne : ¬ E.Matches [])
    (heq : ∀ w, InAlpha al w →
      (X w ↔ B w ∨ ∃ u v, w = u ++ v ∧ X u ∧ E.Matches v)) :
    ∀ w, InAlpha al w →
      (X w ↔ ∃ u v, w = u ++ v ∧ B u ∧ StarL (fun x => E.Matches x) v) := by
  have hfwd : ∀ n w, w.length ≤ n → InAlpha al w → X w →
      ∃ u v, w = u ++ v ∧ B u ∧ StarL (fun x => E.Matches x) v := by
    intro n
    induction n with
    | zero =>
        intro w hw hal hX
        have hwn : w = [] := List.length_eq_zero.mp (Nat.le_zero.mp hw)
        subst hwn
        rcases (heq [] hal).mp hX with hB | ⟨u, v, hsplit, _, hEv⟩
        · exact ⟨[], [], rfl, hB, StarL_nil _⟩
        · obtain ⟨_, hv⟩ := List.append_eq_nil.mp hsplit.symm
          subst hv
          exact absurd hEv hne
    | succ n ih =>
        intro w hw hal hX
        rcases (heq w hal).mp hX with hB | ⟨u, v, hsplit, hXu, hEv⟩
        · exact ⟨w, [], by simp, hB, StarL_nil _⟩
        · have hvne : v ≠ [] := by
            intro hv
            subst hv
            exact hne hEv
          have hul : u.length ≤ n := by
            have h1 : w.length = u.length + v.length := by
              rw [hsplit, List.length_append]
            have h2 : 0 < v.length := List.length_pos.mpr hvne
            omega
          have halu : InAlpha al u :=
            ((inAlpha_append al u v).mp (hsplit ▸ hal)).1
          obtain ⟨u1, v1, hu1, hB1, hS1⟩ := ih u hul halu hXu
          refine ⟨u1, v1 ++ v, ?_, hB1, StarL_append_block _ _ _ hS1 hEv⟩
          rw [hsplit, hu1, List.append_assoc]
  have hbwd : ∀ parts : List (List α), (∀ p ∈ parts, E.Matches p) →
      ∀ u, X u → InAlpha al (u ++ parts.flatten) →
        X (u ++ parts.flatten) := by
    intro parts
    induction parts with
    | nil => intro _ u hXu _; simpa using hXu
    | cons p ps ih =>
        intro hall u hXu hal
        rw [List.flatten_cons, ← List.append_assoc] at hal ⊢
        have hXup : X (u ++ p) := by
          have halup : InAlpha al (u ++ p) :=
            ((inAlpha_append al (u ++ p) ps.flatten).mp hal).1
          exact (heq (u ++ p) halup).mpr
            (Or.inr ⟨u, p, rfl, hXu, hall p (List.mem_cons_self _ _)⟩)
        exact ih (fun q hq => hall q (List.mem_cons_of_mem _ hq)) (u ++ p)
          hXup hal
  intro w hal
  constructor
  · intro hX
    exact hfwd w.length w le_rfl hal hX
  · rintro ⟨u, v, hsplit, hBu, hSv⟩
    obtain ⟨parts, hjoin, hall⟩ := hSv
    subst hsplit
    subst hjoin
    have halu : InAlpha al u := ((inAlpha_append al u _).mp hal).1
    exact hbwd parts hall u ((heq u halu).mpr (Or.inl hBu)) hal

theorem applyLoops_eq_none {α σ : Type} [DecidableEq α] [DecidableEq σ]
    (eqn : Equation α σ) (h : findKey eqn.lefts (some eqn.right) = none) :
    applyLoops eqn = eqn := by
  unfold applyLoops
  rw [h]

theorem applyLoops_eq_some {α σ : Type} [DecidableEq α] [DecidableEq σ]
    (eqn : Equation α σ) (loopE : Lego α)
    (h : findKey eqn.lefts (some eqn.right) = some loopE) :
    applyLoops eqn =
      { right := eqn.right,
        lefts := (eqn.lefts.filter
            (fun p => decide (p.1 ≠ some eqn.right))).map
          (fun p => (p.1, .concat p.2 (.star loopE))) } := by
  unfold applyLoops
  rw [h]

theorem applyLoops_right {α σ : Type} [DecidableEq α] [DecidableEq σ]
    (eqn : Equation α σ) : (applyLoops eqn).right = eqn.right := by
  rcases h : findKey eqn.lefts (some eqn.right) with _ | loopE
  · rw [applyLoops_eq_none eqn h]
  · rw [applyLoops_eq_some eqn loopE h]

theorem applyLoops_keys_subset {α σ : Type} [DecidableEq α] [DecidableEq σ]
    (eqn : Equation α σ) :
    ∀ p ∈ (applyLoops eqn).lefts,
      p.1 ∈ eqn.lefts.map Prod.fst ∧ p.1 ≠ some eqn.right := by
  intro p hp
  rcases h : findKey eqn.lefts (some eqn.right) with _ | loopE
  · rw [applyLoops_eq_none eqn h] at hp
    exact ⟨List.mem_map.mpr ⟨p, hp, rfl⟩,
      (findKey_none_iff _ _).mp h p hp⟩
  · rw [applyLoops_eq_some eqn loopE h] at hp
    obtain ⟨q, hq, hqp⟩ := List.mem_map.mp hp
    rw [List.mem_filter] at hq
    have hq1 : p.1 = q.1 := by rw [← hqp]
    rw [hq1]
    exact ⟨List.mem_map.mpr ⟨q, hq.1, rfl⟩, by simpa using hq.2⟩

theorem applyLoops_no_self {α σ : Type} [DecidableEq α] [DecidableEq σ]
    (eqn : Equation α σ) :
    findKey (applyLoops eqn).lefts (some (applyLoops eqn).right) = none := by
  rw [findKey_none_iff, applyLoops_right]
  intro p hp
  exact (applyLoops_keys_subset eqn p hp).2

theorem applyLoops_keysNodup {α σ : Type} [DecidableEq α] [DecidableEq σ]
    (eqn : Equation α σ) (h : KeysNodup eqn) : KeysNodup (applyLoops eqn) := by
  rcases hf : findKey eqn.lefts (some eqn.right) with _ | loopE
  · rw [applyLoops_eq_none eqn hf]; exact h
  · rw [applyLoops_eq_some eqn loopE hf]
    unfold KeysNodup at h ⊢
    simp only
    rw [List.map_map]
    have heq : (Prod.fst ∘ fun p : Option (Finset σ) × Lego α =>
        (p.1, Lego.concat p.2 (.star loopE))) = Prod.fst := by
      funext q
      rfl
    rw [heq]
    exact List.Nodup.sublist ((List.filter_sublist _).map Prod.fst) h

theorem applyLoops_epsFree {α σ : Type} [DecidableEq α] [DecidableEq σ]
    (eqn : Equation α σ) (h : EpsFree eqn) : EpsFree (applyLoops eqn) := by
  rcases hf : findKey eqn.lefts (some eqn.right) with _ | loopE
  · rw [applyLoops_eq_none eqn hf]; exact h
  · rw [applyLoops_eq_some eqn loopE hf]
    intro p hp hpn
    obtain ⟨q, hq, hqp⟩ := List.mem_map.mp hp
    rw [List.mem_filter] at hq
    rw [← hqp] at hpn ⊢
    rw [matches_concat_iff]
    rintro ⟨u, v, huv, hmu, _⟩
    obtain ⟨hu, hv⟩ := List.append_eq_nil.mp huv.symm
    subst hu
    exact h q hq.1 hpn hmu

/-- The entries of an equation after a uniform concatenation. -/
theorem eqnLang_map_concat {α σ : Type} [DecidableEq α] [DecidableEq σ]
    (A : FSM α σ) (l : List (Option (Finset σ) × Lego α)) (g : Lego α)
    (w : List α) :
    EqnLang A (l.map (fun p => (p.1, Lego.concat p.2 g))) w ↔
      ∃ p ∈ l, ∃ u v v2, w = u ++ (v ++ v2) ∧ KeyLang A p.1 u ∧
        p.2.Matches v ∧ g.Matches v2 := by
  constructor
  · rintro ⟨q, hq, _, hc⟩
    obtain ⟨p, hp, hpq⟩ := List.mem_map.mp hq
    rw [← hpq] at hc
    obtain ⟨u, vv, hw, hk, hm⟩ := hc
    rw [matches_concat_iff] at hm
    obtain ⟨v, v2, hvv, hm1, hm2⟩ := hm
    subst hvv
    exact ⟨p, hp, u, v, v2, hw, hk, hm1, hm2⟩
  · rintro ⟨p, hp, u, v, v2, hw, hk, hm1, hm2⟩
    refine ⟨(p.1, Lego.concat p.2 g), List.mem_map.mpr ⟨p, hp, rfl⟩,
      trivial, u, v ++ v2, hw, hk, ?_⟩
    exact (matches_concat_iff _ _ _).mpr ⟨v, v2, rfl, hm1, hm2⟩

theorem applyLoops_semInv {α σ : Type} [DecidableEq α] [DecidableEq σ]
    (A : FSM α σ) (eqn : Equation α σ) (hS : SemInv A eqn)
    (hE : EpsFree eqn) (hN : KeysNodup eqn) : SemInv A (applyLoops eqn) := by
  rcases hf : findKey eqn.lefts (some eqn.right) with _ | loopE
  · rw [applyLoops_eq_none eqn hf]; exact hS
  · rw [applyLoops_eq_some eqn loopE hf]
    intro w hw
    show Reaches A w eqn.right ↔ _
    have hne : ¬ loopE.Matches [] :=
      hE (some eqn.right, loopE) (findKey_some_mem _ _ _ hf) (by simp)
    have heq : ∀ w2, InAlpha A.alphabet w2 →
        (Reaches A w2 eqn.right ↔
          EqnLangP A eqn.lefts (fun x => x ≠ some eqn.right) w2 ∨
          ∃ u v, w2 = u ++ v ∧ Reaches A u eqn.right ∧ loopE.Matches v) := by
      intro w2 hw2
      rw [hS w2 hw2, eqnLang_decompose A eqn.lefts _ _ hN hf]
      constructor
      · rintro (h | ⟨u, v, hsplit, hk, hm⟩)
        · exact Or.inl h
        · exact Or.inr ⟨u, v, hsplit, hk, hm⟩
      · rintro (h | ⟨u, v, hsplit, hk, hm⟩)
        · exact Or.inl h
        · exact Or.inr ⟨u, v, hsplit, hk, hm⟩
    rw [arden A.alphabet (fun w2 => Reaches A w2 eqn.right)
      (EqnLangP A eqn.lefts (fun x => x ≠ some eqn.right)) loopE hne heq w hw]
    rw [eqnLang_map_concat]
    constructor
    · rintro ⟨u, v, hsplit, ⟨p, hp, hpk, u1, v1, hu1, hk1, hm1⟩, hS1⟩
      refine ⟨p, List.mem_filter.mpr ⟨hp, by simpa using hpk⟩,
        u1, v1, v, ?_, hk1, hm1, (matches_star_iff _ _).mpr hS1⟩
      rw [hsplit, hu1, List.append_assoc]
    · rintro ⟨p, hp, u, v, v2, hw2, hk, hm1, hm2⟩
      rw [List.mem_filter] at hp
      refine ⟨u ++ v, v2, by rw [hw2, List.append_assoc], ?_,
        (matches_star_iff _ _).mp hm2⟩
      exact ⟨p, hp.1, by simpa using hp.2, u, v, rfl, hk, hm1⟩

theorem eliminate_eq_none {α σ : Type} [DecidableEq α] [DecidableEq σ]
    (e other : Equation α σ)
    (h : findKey e.lefts (some other.right) = none) :
    eliminate e other = e := by
  unfold eliminate
  rw [h]

theorem eliminate_eq_some {α σ : Type} [DecidableEq α] [DecidableEq σ]
    (e other : Equation α σ) (route : Lego α)
    (h : findKey e.lefts (some other.right) = some route) :
    eliminate e other =
      { right := e.right,
        lefts := (other.lefts.foldl
            (fun lefts p => addTransition lefts p.1 (.concat p.2 route))
            e.lefts).filter
          (fun p => decide (p.1 ≠ some other.right)) } := by
  unfold eliminate
  rw [h]

theorem eliminate_right {α σ : Type} [DecidableEq α] [DecidableEq σ]
    (e other : Equation α σ) : (eliminate e other).right = e.right := by
  rcases h : findKey e.lefts (some other.right) with _ | route
  · rw [eliminate_eq_none _ _ h]
  · rw [eliminate_eq_some _ _ _ h]

theorem eliminate_keys_subset {α σ : Type} [DecidableEq α] [DecidableEq σ]
    (e other : Equation α σ) :
    ∀ p ∈ (eliminate e other).lefts,
      (p.1 ∈ e.lefts.map Prod.fst ∨ p.1 ∈ other.lefts.map Prod.fst) ∧
        p.1 ≠ some other.right := by
  intro p hp
  rcases h : findKey e.lefts (some other.right) with _ | route
  · rw [eliminate_eq_none _ _ h] at hp
    exact ⟨Or.inl (List.mem_map.mpr ⟨p, hp, rfl⟩),
      (findKey_none_iff _ _).mp h p hp⟩
  · rw [eliminate_eq_some _ _ _ h] at hp
    simp only at hp
    rw [List.mem_filter] at hp
    refine ⟨?_, by simpa using hp.2⟩
    rcases foldl_addTransition_keys Prod.fst
        (fun q => Lego.concat q.2 route) other.lefts e.lefts p hp.1 with
      h2 | ⟨q, hq, h2⟩
    · exact Or.inl h2
    · exact Or.inr (h2 ▸ List.mem_map.mpr ⟨q, hq, rfl⟩)

theorem eliminate_keysNodup {α σ : Type} [DecidableEq α] [DecidableEq σ]
    (e other : Equation α σ) (hN : KeysNodup e) :
    KeysNodup (eliminate e other) := by
  rcases h : findKey e.lefts (some other.right) with _ | route
  · rw [eliminate_eq_none _ _ h]; exact hN
  · rw [eliminate_eq_some _ _ _ h]
    unfold KeysNodup
    simp only
    exact List.Nodup.sublist ((List.filter_sublist _).map Prod.fst)
      (foldl_addTransition_keysNodup Prod.fst
        (fun q => Lego.concat q.2 route) other.lefts e.lefts hN)

theorem eliminate_epsFree {α σ : Type} [DecidableEq α] [DecidableEq σ]
    (e other : Equation α σ) (hE : EpsFree e) : EpsFree (eliminate e other) := by
  rcases h : findKey e.lefts (some other.right) with _ | route
  · rw [eliminate_eq_none _ _ h]; exact hE
  · rw [eliminate_eq_some _ _ _ h]
    have hroute : ¬ route.Matches [] :=
      hE (some other.right, route) (findKey_some_mem _ _ _ h) (by simp)
    intro p hp hpn
    simp only at hp
    rw [List.mem_filter] at hp
    refine foldl_addTransition_epsFree Prod.fst
      (fun q => Lego.concat q.2 route) ?_ other.lefts e.lefts hE p hp.1 hpn
    intro q _
    rw [matches_concat_iff]
    rintro ⟨u, v, huv, _, hmv⟩
    obtain ⟨hu, hv⟩ := List.append_eq_nil.mp huv.symm
    subst hv
    exact hroute hmv

theorem eliminate_semInv {α σ : Type} [DecidableEq α] [DecidableEq σ]
    (A : FSM α σ) (e other : Equation α σ) (hSe : SemInv A e)
    (hSo : SemInv A other) (hNe : KeysNodup e)
    (hnoself : ∀ q ∈ other.lefts, q.1 ≠ some other.right) :
    SemInv A (eliminate e other) := by
  rcases hf : findKey e.lefts (some other.right) with _ | route
  · rw [eliminate_eq_none _ _ hf]; exact hSe
  · rw [eliminate_eq_some _ _ _ hf]
    intro w hw
    show Reaches A w e.right ↔ _
    rw [hSe w hw, eqnLang_decompose A e.lefts _ _ hNe hf]
    show _ ↔ EqnLang A ((other.lefts.foldl
        (fun lefts p => addTransition lefts p.1 (.concat p.2 route))
        e.lefts).filter (fun p => decide (p.1 ≠ some other.right))) w
    rw [eqnLang_filter, foldl_addTransition_lang A Prod.fst
      (fun q => Lego.concat q.2 route) (fun x => x ≠ some other.right) w
      other.lefts e.lefts]
    have hmain : Contrib A (some other.right, route) w ↔
        ∃ q ∈ other.lefts, (q.1 ≠ some other.right) ∧
          ∃ u v, w = u ++ v ∧ KeyLang A q.1 u ∧
            (Lego.concat q.2 route).Matches v := by
      constructor
      · rintro ⟨u, v, hsplit, hk, hm⟩
        have hwu : InAlpha A.alphabet u :=
          ((inAlpha_append _ u v).mp (hsplit ▸ hw)).1
        have hreach : Reaches A u other.right := hk
        obtain ⟨q, hq, _, u1, u2, hu12, hk1, hm1⟩ := (hSo u hwu).mp hreach
        refine ⟨q, hq, hnoself q hq, u1, u2 ++ v, ?_, hk1, ?_⟩
        · rw [hsplit, hu12, List.append_assoc]
        · exact (matches_concat_iff _ _ _).mpr ⟨u2, v, rfl, hm1, hm⟩
      · rintro ⟨q, hq, _, u, v, hsplit, hk, hm⟩
        rw [matches_concat_iff] at hm
        obtain ⟨v1, v2, hvv, hm1, hm2⟩ := hm
        subst hvv
        have hw2 : w = (u ++ v1) ++ v2 := by rw [hsplit, List.append_assoc]
        have hwu : InAlpha A.alphabet (u ++ v1) :=
          ((inAlpha_append _ (u ++ v1) v2).mp (hw2 ▸ hw)).1
        refine ⟨u ++ v1, v2, hw2, ?_, hm2⟩
        show Reaches A (u ++ v1) other.right
        exact (hSo (u ++ v1) hwu).mpr ⟨q, hq, trivial, u, v1, rfl, hk, hm1⟩
    constructor
    · rintro (h | h)
      · exact Or.inl h
      · exact Or.inr (hmain.mp h)
    · rintro (h | h)
      · exact Or.inl h
      · exact Or.inr (hmain.mpr h)

/-- The key of the per-symbol entry of `equation.__init__`: the set of states
with a one-symbol transition into `right` under the symbol. -/
def mkKey {α σ : Type} [DecidableEq σ] (A : FSM α σ) (right : Finset σ)
    (b : α) : Option (Finset σ) :=
  some (A.states.filter (fun p => A.map p b ∈ right))

/-- The class routed by a symbol in `equation.__init__`: the wildcard token
carries the complement of the remaining alphabet, any other symbol its own
singleton class. -/
def mkExpr {α σ : Type} [DecidableEq α] (A : FSM α σ) (oc b : α) : Lego α :=
  if b = oc then .charcls (A.alphabet.erase oc) true
  else .charcls {b} false

theorem mkEquation_right {α σ : Type} [LinearOrder α] [DecidableEq σ]
    (pres : List α) (A : FSM α σ) (oc : α) (right : Finset σ) :
    (mkEquation pres A oc right).right = right := rfl

theorem mkEquation_lefts {α σ : Type} [LinearOrder α] [DecidableEq σ]
    (pres : List α) (A : FSM α σ) (oc : α) (right : Finset σ) :
    (mkEquation pres A oc right).lefts =
      if A.initial ∈ right then
        addTransition ((sortSyms pres).foldl
          (fun l b => addTransition l (mkKey A right b) (mkExpr A oc b)) [])
          none Lego.emptystring
      else (sortSyms pres).foldl
        (fun l b => addTransition l (mkKey A right b) (mkExpr A oc b)) [] := by
  have hfn : (fun (lefts : List (Option (Finset σ) × Lego α)) (b : α) =>
      let left := A.states.filter (fun p => A.map p b ∈ right)
      if b = oc then
        addTransition lefts (some left)
          (Lego.charcls (A.alphabet.erase oc) true)
      else addTransition lefts (some left) (Lego.charcls {b} false)) =
      fun l2 b => addTransition l2 (mkKey A right b) (mkExpr A oc b) := by
    funext lefts b
    show (if b = oc then _ else _) =
      addTransition lefts (mkKey A right b) (mkExpr A oc b)
    unfold mkKey mkExpr
    split_ifs with hb <;> rfl
  show (if A.initial ∈ right then
      addTransition ((sortSyms pres).foldl
        (fun (lefts : List (Option (Finset σ) × Lego α)) (b : α) =>
          let left := A.states.filter (fun p => A.map p b ∈ right)
          if b = oc then
            addTransition lefts (some left)
              (Lego.charcls (A.alphabet.erase oc) true)
          else addTransition lefts (some left) (Lego.charcls {b} false)) [])
        none Lego.emptystring
    else (sortSyms pres).foldl
      (fun (lefts : List (Option (Finset σ) × Lego α)) (b : α) =>
        let left := A.states.filter (fun p => A.map p b ∈ right)
        if b = oc then
          addTransition lefts (some left)
            (Lego.charcls (A.alphabet.erase oc) true)
        else addTransition lefts (some left) (Lego.charcls {b} false)) []) = _
  rw [hfn]

theorem mkEquation_keysNodup {α σ : Type} [LinearOrder α] [DecidableEq σ]
    (pres : List α) (A : FSM α σ) (oc : α) (right : Finset σ) :
    KeysNodup (mkEquation pres A oc right) := by
  unfold KeysNodup
  rw [mkEquation_lefts]
  have hbase := foldl_addTransition_keysNodup (mkKey A right) (mkExpr A oc)
    (sortSyms pres) [] (by simp)
  split_ifs with h
  · exact addTransition_keysNodup _ _ _ hbase
  · exact hbase

theorem mkEquation_epsFree {α σ : Type} [LinearOrder α] [DecidableEq σ]
    (pres : List α) (A : FSM α σ) (oc : α) (right : Finset σ) :
    EpsFree (mkEquation pres A oc right) := by
  have hexpr : ∀ b : α, mkKey A right b ≠ none →
      ¬ (mkExpr A oc b).Matches [] := by
    intro b _
    unfold mkExpr
    split_ifs with hb
    · rw [matches_charcls_neg_iff]
      rintro ⟨a, ha, -⟩
      simp at ha
    · rw [matches_charcls_pos_iff]
      rintro ⟨a, ha, -⟩
      simp at ha
  have hbase := foldl_addTransition_epsFree (mkKey A right) (mkExpr A oc)
    hexpr (sortSyms pres) [] (by intro p hp; cases hp)
  intro p hp hpn
  rw [mkEquation_lefts] at hp
  split_ifs at hp with h
  · exact addTransition_epsFree _ _ _ hbase
      (fun hc => absurd rfl hc) p hp hpn
  · exact hbase p hp hpn

theorem mkEquation_semInv {α σ : Type} [LinearOrder α] [DecidableEq σ]
    (pres : List α) (A : FSM α σ) (oc : α) (right : Finset σ)
    (hpres : pres.toFinset = A.alphabet) (hval : A.Valid) :
    SemInv A (mkEquation pres A oc right) := by
  intro w hw
  rw [mkEquation_right, mkEquation_lefts]
  have hmain : ∀ (w2 : List α), InAlpha A.alphabet w2 →
      ((∃ b ∈ sortSyms pres, True ∧ ∃ u v, w2 = u ++ v ∧
          KeyLang A (mkKey A right b) u ∧ (mkExpr A oc b).Matches v) ↔
        (Reaches A w2 right ∧ w2 ≠ [])) := by
    intro w2 hw2
    constructor
    · rintro ⟨b, hb, -, u, v, hsplit, hk, hm⟩
      have hk2 : u.foldl A.map A.initial ∈
          A.states.filter (fun p => A.map p b ∈ right) := hk
      rw [Finset.mem_filter] at hk2
      have hvx : ∃ x, v = [x] ∧ x = b := by
        unfold mkExpr at hm
        split_ifs at hm with hboc
        · rw [matches_charcls_neg_iff] at hm
          obtain ⟨x, hv, hx⟩ := hm
          refine ⟨x, hv, ?_⟩
          have hxal : x ∈ A.alphabet := by
            refine hw2 x ?_
            rw [hsplit, hv]
            exact List.mem_append_right _ (List.mem_singleton_self x)
          rw [hboc]
          by_contra hxo
          exact hx (Finset.mem_erase.mpr ⟨hxo, hxal⟩)
        · rw [matches_charcls_pos_iff] at hm
          obtain ⟨x, hv, hx⟩ := hm
          exact ⟨x, hv, Finset.mem_singleton.mp hx⟩
      obtain ⟨x, hv, hxb⟩ := hvx
      subst hxb
      constructor
      · show w2.foldl A.map A.initial ∈ right
        rw [hsplit, hv, List.foldl_append]
        simpa using hk2.2
      · rw [hsplit, hv]
        simp
    · rintro ⟨hreach, hne⟩
      rcases List.eq_nil_or_concat w2 with h | ⟨w3, a, h⟩
      · exact absurd h hne
      rw [List.concat_eq_append] at h
      subst h
      have hw3 : InAlpha A.alphabet w3 :=
        ((inAlpha_append _ _ _).mp hw2).1
      have ha : a ∈ A.alphabet :=
        hw2 a (List.mem_append_right _ (List.mem_singleton_self a))
      have hrun : w3.foldl A.map A.initial ∈ A.states :=
        foldl_mem A hval w3 hw3 A.initial hval.1
      have hra : A.map (w3.foldl A.map A.initial) a ∈ right := by
        have h2 : (w3 ++ [a]).foldl A.map A.initial ∈ right := hreach
        rw [List.foldl_append] at h2
        simpa using h2
      refine ⟨a, ?_, trivial, w3, [a], rfl, ?_, ?_⟩
      · rw [mem_sortSyms, ← List.mem_toFinset, hpres]
        exact ha
      · show w3.foldl A.map A.initial ∈
          A.states.filter (fun p => A.map p a ∈ right)
        exact Finset.mem_filter.mpr ⟨hrun, hra⟩
      · unfold mkExpr
        split_ifs with haoc
        · rw [matches_charcls_neg_iff]
          refine ⟨a, rfl, ?_⟩
          rw [haoc]
          exact Finset.not_mem_erase oc A.alphabet
        · rw [matches_charcls_pos_iff]
          exact ⟨a, rfl, Finset.mem_singleton_self a⟩
  have hstep := foldl_addTransition_lang A (mkKey A right) (mkExpr A oc)
    (fun _ => True) w (sortSyms pres) []
  unfold EqnLang
  split_ifs with hin
  · rw [addTransition_lang, hstep]
    constructor
    · intro hreach
      by_cases hwe : w = []
      · subst hwe
        refine Or.inr ⟨trivial, [], [], rfl, ?_, .emptystring⟩
        rfl
      · exact Or.inl (Or.inr ((hmain w hw).mpr ⟨hreach, hwe⟩))
    · rintro ((h | h) | ⟨-, u, v, hsplit, hk, hm⟩)
      · obtain ⟨p, hp, -⟩ := h
        cases hp
      · exact ((hmain w hw).mp h).1
      · have hu : u = [] := hk
        rw [matches_emptystring_iff] at hm
        show w.foldl A.map A.initial ∈ right
        rw [hsplit, hu, hm]
        exact hin
  · rw [hstep]
    constructor
    · intro hreach
      by_cases hwe : w = []
      · subst hwe
        exact absurd hreach hin
      · exact Or.inr ((hmain w hw).mpr ⟨hreach, hwe⟩)
    · rintro (h | h)
      · obtain ⟨p, hp, -⟩ := h
        cases hp
      · exact ((hmain w hw).mp h).1

/-- The per-entry body of the discovery scan of `fsm.pattern`: a state-set
key not yet described by an equation enqueues a fresh equation for it. -/
def discoverBody {α σ : Type} [LinearOrder α] [DecidableEq σ] (pres : List α)
    (A : FSM α σ) (oc : α) (acc : List (Equation α σ))
    (p : Option (Finset σ) × Lego α) : List (Equation α σ) :=
  match p.1 with
  | none => acc
  | some r =>
      if r ∈ acc.map Equation.right then acc
      else acc ++ [mkEquation pres A oc r]

theorem discoverBody_none {α σ : Type} [LinearOrder α] [DecidableEq σ]
    (pres : List α) (A : FSM α σ) (oc : α) (acc : List (Equation α σ))
    (E : Lego α) : discoverBody pres A oc acc (none, E) = acc := rfl

theorem discoverBody_some {α σ : Type} [LinearOrder α] [DecidableEq σ]
    (pres : List α) (A : FSM α σ) (oc : α) (acc : List (Equation α σ))
    (r : Finset σ) (E : Lego α) :
    discoverBody pres A oc acc (some r, E) =
      if r ∈ acc.map Equation.right then acc
      else acc ++ [mkEquation pres A oc r] := rfl

theorem discover_succ {α σ : Type} [LinearOrder α] [DecidableEq σ]
    (pres : List α) (A : FSM α σ) (oc : α) (fuel : ℕ)
    (eqs : List (Equation α σ)) (i : ℕ) (h : i < eqs.length) :
    discover pres A oc (fuel + 1) eqs i =
      discover pres A oc fuel
        (eqs[i].lefts.foldl (discoverBody pres A oc) eqs) (i + 1) := by
  conv_lhs => rw [discover]
  rw [dif_pos h]
  rfl

theorem discover_stop {α σ : Type} [LinearOrder α] [DecidableEq σ]
    (pres : List α) (A : FSM α σ) (oc : α) (fuel : ℕ)
    (eqs : List (Equation α σ)) (i : ℕ) (h : ¬ i < eqs.length) :
    discover pres A oc fuel eqs i = some eqs := by
  cases fuel with
  | zero => unfold discover; rw [if_neg h]
  | succ n => unfold discover; rw [dif_neg h]

theorem discover_foldl_spec {α σ : Type} [LinearOrder α] [DecidableEq σ]
    (pres : List α) (A : FSM α σ) (oc : α) :
    ∀ (lefts : List (Option (Finset σ) × Lego α)) (acc : List (Equation α σ)),
      (∃ suf, lefts.foldl (discoverBody pres A oc) acc = acc ++ suf) ∧
      ((∀ e ∈ acc, ∃ R, e = mkEquation pres A oc R) →
        ∀ e ∈ lefts.foldl (discoverBody pres A oc) acc,
          ∃ R, e = mkEquation pres A oc R) ∧
      ((acc.map Equation.right).Nodup →
        ((lefts.foldl (discoverBody pres A oc) acc).map
          Equation.right).Nodup) ∧
      (∀ p ∈ lefts, p.1 = none ∨
        ∃ e2 ∈ lefts.foldl (discoverBody pres A oc) acc,
          p.1 = some e2.right) := by
  intro lefts
  induction lefts with
  | nil =>
      intro acc
      refine ⟨⟨[], (List.append_nil acc).symm⟩, ?_, ?_, ?_⟩
      · intro h e he; exact h e he
      · intro h; exact h
      · intro p hp; cases hp
  | cons p t ih =>
      intro acc
      have hstep : (∃ s0, discoverBody pres A oc acc p = acc ++ s0) ∧
          ((∀ e ∈ acc, ∃ R, e = mkEquation pres A oc R) →
            ∀ e ∈ discoverBody pres A oc acc p,
              ∃ R, e = mkEquation pres A oc R) ∧
          ((acc.map Equation.right).Nodup →
            ((discoverBody pres A oc acc p).map Equation.right).Nodup) ∧
          (p.1 = none ∨ ∃ e2 ∈ discoverBody pres A oc acc p,
            p.1 = some e2.right) := by
        rcases p with ⟨k, E⟩
        rcases k with _ | r
        · rw [discoverBody_none]
          exact ⟨⟨[], (List.append_nil acc).symm⟩, fun h => h, fun h => h,
            Or.inl rfl⟩
        · rw [discoverBody_some]
          split_ifs with hr
          · refine ⟨⟨[], (List.append_nil acc).symm⟩, fun h => h, fun h => h,
              ?_⟩
            right
            obtain ⟨e2, he2, hre⟩ := List.mem_map.mp hr
            refine ⟨e2, he2, ?_⟩
            rw [hre]
          · refine ⟨⟨[mkEquation pres A oc r], rfl⟩, ?_, ?_, ?_⟩
            · intro h e he
              rcases List.mem_append.mp he with he | he
              · exact h e he
              · exact ⟨r, List.mem_singleton.mp he⟩
            · intro h
              rw [List.map_append]
              refine List.Nodup.append h (by simp) ?_
              intro x hx hx2
              simp only [List.map_cons, List.map_nil,
                List.mem_singleton] at hx2
              rw [mkEquation_right] at hx2
              exact hr (hx2 ▸ hx)
            · right
              refine ⟨mkEquation pres A oc r,
                List.mem_append_right _ (List.mem_singleton_self _), ?_⟩
              rw [mkEquation_right]
      obtain ⟨⟨s0, hs0⟩, hP0, hN0, hcur⟩ := hstep
      obtain ⟨⟨suf, hsuf⟩, hP, hN, hC⟩ := ih (discoverBody pres A oc acc p)
      rw [List.foldl_cons]
      refine ⟨?_, ?_, ?_, ?_⟩
      · refine ⟨s0 ++ suf, ?_⟩
        rw [hsuf, hs0, List.append_assoc]
      · intro h e he
        exact hP (hP0 h) e he
      · intro h
        exact hN (hN0 h)
      · intro q hq
        rcases List.mem_cons.mp hq with hqp | hqt
        · subst hqp
          rcases hcur with h | ⟨e2, he2, hk⟩
          · exact Or.inl h
          · refine Or.inr ⟨e2, ?_, hk⟩
            rw [hsuf]
            exact List.mem_append_left _ he2
        · exact hC q hqt

theorem closure_of_scanned {α σ : Type} [DecidableEq σ]
    (eqs : List (Equation α σ)) (i : ℕ) (hi : ¬ i < eqs.length)
    (h4 : ∀ j (hj2 : j < eqs.length), j < i →
      ∀ p ∈ eqs[j].lefts, p.1 = none ∨ ∃ e2 ∈ eqs, p.1 = some e2.right) :
    ∀ e ∈ eqs, ∀ p ∈ e.lefts,
      p.1 = none ∨ ∃ e2 ∈ eqs, p.1 = some e2.right := by
  intro e he p hp
  obtain ⟨j, hj2, hje⟩ := List.mem_iff_getElem.mp he
  refine h4 j hj2 (lt_of_lt_of_le hj2 (le_of_not_lt hi)) p ?_
  rw [hje]
  exact hp

theorem discover_spec {α σ : Type} [LinearOrder α] [DecidableEq σ]
    (pres : List α) (A : FSM α σ) (oc : α) (e₀ : Equation α σ) :
    ∀ (fuel : ℕ) (eqs : List (Equation α σ)) (i : ℕ),
      (∀ e ∈ eqs, ∃ R, e = mkEquation pres A oc R) →
      (eqs.map Equation.right).Nodup →
      eqs.head? = some e₀ →
      (∀ j (hj2 : j < eqs.length), j < i →
        ∀ p ∈ eqs[j].lefts, p.1 = none ∨ ∃ e2 ∈ eqs, p.1 = some e2.right) →
      ∀ out, discover pres A oc fuel eqs i = some out →
        (∀ e ∈ out, ∃ R, e = mkEquation pres A oc R) ∧
        (out.map Equation.right).Nodup ∧
        out.head? = some e₀ ∧
        (∀ e ∈ out, ∀ p ∈ e.lefts,
          p.1 = none ∨ ∃ e2 ∈ out, p.1 = some e2.right) := by
  intro fuel
  induction fuel with
  | zero =>
      intro eqs i h1 h2 h3 h4 out hout
      by_cases hi : i < eqs.length
      · unfold discover at hout
        rw [if_pos hi] at hout
        cases hout
      · rw [discover_stop pres A oc 0 eqs i hi] at hout
        obtain rfl : eqs = out := Option.some.inj hout
        exact ⟨h1, h2, h3, closure_of_scanned eqs i hi h4⟩
  | succ n ih =>
      intro eqs i h1 h2 h3 h4 out hout
      by_cases hi : i < eqs.length
      · rw [discover_succ pres A oc n eqs i hi] at hout
        obtain ⟨⟨suf, hsuf⟩, hP, hN, hC⟩ :=
          discover_foldl_spec pres A oc eqs[i].lefts eqs
        refine ih (eqs[i].lefts.foldl (discoverBody pres A oc) eqs) (i + 1)
          (hP h1) (hN h2) ?_ ?_ out hout
        · rw [hsuf]
          cases eqs with
          | nil => cases h3
          | cons a t => simpa using h3
        · intro j hj2 hji p hp
          have hjl : j < eqs.length := lt_of_le_of_lt (Nat.lt_succ_iff.mp hji) hi
          have h5 := List.getElem?_eq_getElem hj2
          have h6 : (eqs[i].lefts.foldl (discoverBody pres A oc) eqs)[j]? =
              some eqs[j] := by
            rw [hsuf, List.getElem?_append_left hjl,
              List.getElem?_eq_getElem hjl]
          have hget := Option.some.inj (h5.symm.trans h6)
          rw [hget] at hp
          rcases Nat.lt_or_ge j i with hji2 | hji2
          · rcases h4 j hjl hji2 p hp with hn | ⟨e2, he2, hk⟩
            · exact Or.inl hn
            · refine Or.inr ⟨e2, ?_, hk⟩
              rw [hsuf]
              exact List.mem_append_left _ he2
          · have hj : j = i := le_antisymm (Nat.lt_succ_iff.mp hji) hji2
            subst hj
            rcases hC p hp with hn | he2
            · exact Or.inl hn
            · exact Or.inr he2
      · rw [discover_stop pres A oc (n + 1) eqs i hi] at hout
        obtain rfl : eqs = out := Option.some.inj hout
        exact ⟨h1, h2, h3, closure_of_scanned eqs i hi h4⟩

theorem getLastq_map {β γ : Type} (f : β → γ) :
    ∀ l : List β, (l.map f).getLast? = (l.getLast?).map f := by
  intro l
  induction l using List.reverseRecOn with
  | nil => rfl
  | append_singleton xs a ih =>
      rw [List.map_append]
      simp only [List.map_cons, List.map_nil]
      rw [List.getLast?_concat, List.getLast?_concat]
      rfl

theorem getLastq_cons {β : Type} (a : β) (l : List β) (h : l ≠ []) :
    (a :: l).getLast? = l.getLast? := by
  cases l with
  | nil => exact absurd rfl h
  | cons b t => rw [List.getLast?_cons_cons]

theorem elimRevN_spec {α σ : Type} [DecidableEq α] [DecidableEq σ]
    (A : FSM α σ) :
    ∀ (n : ℕ) (l : List (Equation α σ)), l.length = n →
      (∀ e ∈ l, SemInv A e ∧ KeysNodup e ∧ EpsFree e) →
      ((l.map Equation.right).Nodup) →
      (∀ e ∈ l, ∀ p ∈ e.lefts,
        p.1 = none ∨ ∃ e2 ∈ l, p.1 = some e2.right) →
      (elimRevN l.length l).map Equation.right = l.map Equation.right ∧
      (∀ last, l.getLast? = some last →
        ∃ fin, (elimRevN l.length l).getLast? = some fin ∧
          fin.right = last.right ∧ SemInv A fin ∧ KeysNodup fin ∧
          ∀ p ∈ fin.lefts, p.1 = none) := by
  intro n
  induction n with
  | zero =>
      intro l hlen h1 h2 h3
      have hl : l = [] := List.length_eq_zero.mp hlen
      subst hl
      refine ⟨rfl, ?_⟩
      intro last hlast
      cases hlast
  | succ m ih =>
      intro l hlen h1 h2 h3
      cases l with
      | nil => simp at hlen
      | cons x rest =>
          have hrl : rest.length = m := by
            rw [List.length_cons] at hlen
            exact Nat.succ.inj hlen
          obtain ⟨hSx, hNx, hEx⟩ := h1 x (List.mem_cons_self x rest)
          have hSx2 : SemInv A (applyLoops x) := applyLoops_semInv A x hSx hEx hNx
          have hNx2 : KeysNodup (applyLoops x) := applyLoops_keysNodup x hNx
          have hnoself : ∀ q ∈ (applyLoops x).lefts,
              q.1 ≠ some (applyLoops x).right := by
            intro q hq
            rw [applyLoops_right]
            exact (applyLoops_keys_subset x q hq).2
          have h1' : ∀ e ∈ rest.map (fun e => eliminate e (applyLoops x)),
              SemInv A e ∧ KeysNodup e ∧ EpsFree e := by
            intro e' he'
            obtain ⟨e, he, rfl⟩ := List.mem_map.mp he'
            obtain ⟨hSe, hNe, hEe⟩ := h1 e (List.mem_cons_of_mem x he)
            exact ⟨eliminate_semInv A e (applyLoops x) hSe hSx2 hNe hnoself,
              eliminate_keysNodup e (applyLoops x) hNe,
              eliminate_epsFree e (applyLoops x) hEe⟩
          have hrights : ((rest.map (fun e => eliminate e (applyLoops x))).map
              Equation.right) = rest.map Equation.right := by
            rw [List.map_map]
            refine List.map_congr_left ?_
            intro e he
            exact eliminate_right e (applyLoops x)
          have h2' : (((rest.map (fun e => eliminate e (applyLoops x))).map
              Equation.right)).Nodup := by
            rw [hrights]
            rw [List.map_cons] at h2
            exact (List.nodup_cons.mp h2).2
          have h3' : ∀ e' ∈ rest.map (fun e => eliminate e (applyLoops x)),
              ∀ p ∈ e'.lefts, p.1 = none ∨
                ∃ e2 ∈ rest.map (fun e => eliminate e (applyLoops x)),
                  p.1 = some e2.right := by
            intro e' he' p hp
            obtain ⟨e, he, rfl⟩ := List.mem_map.mp he'
            obtain ⟨hor, hne⟩ := eliminate_keys_subset e (applyLoops x) p hp
            have hne2 : p.1 ≠ some x.right := by
              rw [← applyLoops_right x]
              exact hne
            have hcl : p.1 = none ∨ ∃ e2 ∈ x :: rest, p.1 = some e2.right := by
              rcases hor with hk | hk
              · obtain ⟨q, hq, hq1⟩ := List.mem_map.mp hk
                rcases h3 e (List.mem_cons_of_mem x he) q hq with
                  hn | ⟨e2, he2, hk2⟩
                · left
                  rw [← hq1]
                  exact hn
                · right
                  refine ⟨e2, he2, ?_⟩
                  rw [← hq1]
                  exact hk2
              · obtain ⟨q, hq, hq1⟩ := List.mem_map.mp hk
                obtain ⟨hqx, hqne⟩ := applyLoops_keys_subset x q hq
                obtain ⟨q2, hq2, hq21⟩ := List.mem_map.mp hqx
                rcases h3 x (List.mem_cons_self x rest) q2 hq2 with
                  hn | ⟨e2, he2, hk2⟩
                · left
                  rw [← hq1, ← hq21]
                  exact hn
                · right
                  refine ⟨e2, he2, ?_⟩
                  rw [← hq1, ← hq21]
                  exact hk2
            rcases hcl with hn | ⟨e2, he2, hk2⟩
            · exact Or.inl hn
            · rcases List.mem_cons.mp he2 with rfl | he2r
              · exact absurd hk2 hne2
              · refine Or.inr ⟨eliminate e2 (applyLoops x),
                  List.mem_map.mpr ⟨e2, he2r, rfl⟩, ?_⟩
                rw [eliminate_right]
                exact hk2
          have hcompute : elimRevN (x :: rest).length (x :: rest) =
              applyLoops x ::
                elimRevN ((rest.map (fun e => eliminate e (applyLoops x))).length)
                  (rest.map (fun e => eliminate e (applyLoops x))) := by
            rw [List.length_cons, List.length_map]
            rfl
          obtain ⟨ihr, ihl⟩ := ih (rest.map (fun e => eliminate e (applyLoops x)))
            (by rw [List.length_map]; exact hrl) h1' h2' h3'
          constructor
          · rw [hcompute, List.map_cons, List.map_cons, ihr, hrights,
              applyLoops_right]
          · intro last hlast
            cases rest with
            | nil =>
                have hlx : x = last := Option.some.inj hlast
                refine ⟨applyLoops x, ?_, ?_, hSx2, hNx2, ?_⟩
                · rw [hcompute]
                  rfl
                · rw [← hlx, applyLoops_right]
                · intro p hp
                  obtain ⟨hpx, hpne⟩ := applyLoops_keys_subset x p hp
                  obtain ⟨q, hq, hq1⟩ := List.mem_map.mp hpx
                  rcases h3 x (List.mem_cons_self x []) q hq with
                    hn | ⟨e2, he2, hk2⟩
                  · rw [← hq1]
                    exact hn
                  · rcases List.mem_cons.mp he2 with rfl | h0
                    · refine absurd ?_ hpne
                      rw [← hq1]
                      exact hk2
                    · cases h0
            | cons y t =>
                have hlast2 : (y :: t).getLast? = some last := by
                  rw [List.getLast?_cons_cons] at hlast
                  exact hlast
                have hmap : (((y :: t).map
                    (fun e => eliminate e (applyLoops x))).getLast?) =
                    some (eliminate last (applyLoops x)) := by
                  rw [getLastq_map, hlast2]
                  rfl
                obtain ⟨fin, hfin, hfr, hfS, hfN, hfK⟩ :=
                  ihl (eliminate last (applyLoops x)) hmap
                have hne : elimRevN (((y :: t).map
                    (fun e => eliminate e (applyLoops x))).length)
                    ((y :: t).map (fun e => eliminate e (applyLoops x))) ≠ [] := by
                  intro hemp
                  rw [hemp] at hfin
                  cases hfin
                refine ⟨fin, ?_, ?_, hfS, hfN, hfK⟩
                · rw [hcompute, getLastq_cons _ _ hne]
                  exact hfin
                · rw [hfr, eliminate_right]

/-- C1: round-trip correctness of the extraction operation — for every valid
automaton, when `pattern` returns an expression (the discovery worklist
stabilising within the given fuel), that expression derives exactly the
alphabet-sequences the automaton accepts: every accepted sequence is
derivable from the extracted expression, and every derivable sequence over
the alphabet is accepted. -/
theorem pattern_correct {α σ : Type} [LinearOrder α] [DecidableEq σ]
    (A : FSM α σ) (oc : α) (fuel : ℕ) (E : Lego α) (hval : A.Valid)
    (hp : pattern A oc fuel = some E) :
    ∀ w, InAlpha A.alphabet w → (E.Matches w ↔ A.accepts w = true) := by
  have hpres : (sortedElems A.alphabet).toFinset = A.alphabet :=
    sortedElems_toFinset A.alphabet
  unfold pattern patternAux at hp
  rw [Option.map_eq_some'] at hp
  obtain ⟨eqs, hdisc, hE⟩ := hp
  have hE' : (match (elimRevN eqs.length eqs.reverse).getLast? with
      | some eq0 => (findKey eq0.lefts none).getD Lego.nothing
      | none => Lego.nothing) = E := hE
  obtain ⟨hall, hnodup, hhead, hclos⟩ :=
    discover_spec (sortedElems A.alphabet) A oc
      (mkEquation (sortedElems A.alphabet) A oc A.finals) fuel
      [mkEquation (sortedElems A.alphabet) A oc A.finals] 0
      (by
        intro e he
        rw [List.mem_singleton] at he
        exact ⟨A.finals, he⟩)
      (by simp)
      rfl
      (by
        intro j hj2 hj0
        exact absurd hj0 (Nat.not_lt_zero j))
      eqs hdisc
  have hrevprops : ∀ e ∈ eqs.reverse, SemInv A e ∧ KeysNodup e ∧ EpsFree e := by
    intro e he
    rw [List.mem_reverse] at he
    obtain ⟨R, rfl⟩ := hall e he
    exact ⟨mkEquation_semInv _ A oc R hpres hval,
      mkEquation_keysNodup _ A oc R, mkEquation_epsFree _ A oc R⟩
  have hrevnodup : ((eqs.reverse.map Equation.right)).Nodup := by
    rw [List.map_reverse]
    exact List.nodup_reverse.mpr hnodup
  have hrevclos : ∀ e ∈ eqs.reverse, ∀ p ∈ e.lefts,
      p.1 = none ∨ ∃ e2 ∈ eqs.reverse, p.1 = some e2.right := by
    intro e he p hp2
    rw [List.mem_reverse] at he
    rcases hclos e he p hp2 with hn | ⟨e2, he2, hk⟩
    · exact Or.inl hn
    · exact Or.inr ⟨e2, List.mem_reverse.mpr he2, hk⟩
  obtain ⟨-, hlastp⟩ := elimRevN_spec A (eqs.reverse.length) eqs.reverse rfl
    hrevprops hrevnodup hrevclos
  have hrevlast : eqs.reverse.getLast? =
      some (mkEquation (sortedElems A.alphabet) A oc A.finals) := by
    rw [List.getLast?_reverse]
    exact hhead
  obtain ⟨fin, hfin, hfr, hfS, hfN, hfK⟩ := hlastp _ hrevlast
  rw [mkEquation_right] at hfr
  rw [← List.length_reverse eqs, hfin] at hE'
  have hE2 : (findKey fin.lefts none).getD Lego.nothing = E := hE'
  intro w hw
  have hsem := hfS w hw
  rw [hfr] at hsem
  have hiff : EqnLang A fin.lefts w ↔ E.Matches w := by
    rcases hfind : findKey fin.lefts none with _ | v
    · rw [hfind] at hE2
      have hEn : Lego.nothing = E := hE2
      constructor
      · rintro ⟨p, hp2, -, -⟩
        exact absurd (hfK p hp2) ((findKey_none_iff _ _).mp hfind p hp2)
      · intro hm
        rw [← hEn] at hm
        exact ((matches_nothing_iff w).mp hm).elim
    · rw [hfind] at hE2
      have hEv : v = E := hE2
      rw [eqnLang_decompose A fin.lefts none v hfN hfind w]
      constructor
      · rintro (⟨p, hp2, hk, -⟩ | ⟨u, v2, hsplit, hku, hm⟩)
        · exact absurd (hfK p hp2) hk
        · have hu : u = [] := hku
          rw [← hEv, hsplit, hu]
          exact hm
      · intro hm
        right
        refine ⟨[], w, rfl, rfl, ?_⟩
        rw [hEv]
        exact hm
  constructor
  · intro hm
    have hreach := hsem.mpr (hiff.mpr hm)
    show decide (w.foldl A.map A.initial ∈ A.finals) = true
    exact decide_eq_true hreach
  · intro hacc
    have hreach : w.foldl A.map A.initial ∈ A.finals := of_decide_eq_true hacc
    exact hiff.mp (hsem.mp hreach)

/-- Witness for C1: the one-symbol-alphabet automaton accepting only the
empty sequence, with the wildcard token `1` outside its alphabet; the
extracted expression derives the empty sequence exactly as the automaton
accepts it. -/
theorem pattern_correct_witness :
    (epsilon ({0} : Finset ℕ)).Valid ∧
    pattern (epsilon ({0} : Finset ℕ)) 1 10 =
      some ((pattern (epsilon ({0} : Finset ℕ)) 1 10).getD Lego.nothing) ∧
    InAlpha ({0} : Finset ℕ) ([] : List ℕ) ∧
    (((pattern (epsilon ({0} : Finset ℕ)) 1 10).getD Lego.nothing).Matches
        ([] : List ℕ) ↔
      (epsilon ({0} : Finset ℕ)).accepts ([] : List ℕ) = true) :=
  ⟨by decide, by rfl,
    fun x hx => absurd hx (List.not_mem_nil x),
    pattern_correct (epsilon ({0} : Finset ℕ)) 1 10
      ((pattern (epsilon ({0} : Finset ℕ)) 1 10).getD Lego.nothing)
      (by decide) (by rfl) []
      (fun x hx => absurd hx (List.not_mem_nil x))⟩
